import Mathlib

/-!
Shallow embedding of the metadata-extraction core of the COURT-MIND legal
summarizer backend (`legal-summarizer/backend/main.py`): text normalization,
date parsing and classification, citation extraction, timeline synthesis and
the case-status heuristic.  Python strings are modelled as `List Char`;
`datetime.date` as a `(year, month, day)` triple of naturals; each call to
`datetime.now().date()` in the source becomes an explicit date argument of
the embedded function.  Character classes of the Python regexes (`\s`, `\w`)
are modelled over the character sets that actually occur in this pipeline
(ASCII plus the explicit Unicode code points the source manipulates).
-/

set_option maxRecDepth 8000

namespace CourtMind

/-- Python `str` values, modelled as lists of characters. -/
abbrev Str := List Char

/-- Characters matched by `[ \t]` in `_normalize_text`'s first substitution. -/
def isBlankC (c : Char) : Bool := c == ' ' || c == '\t'

/-- Characters matched by Python's regex `\s` (and stripped by `str.strip()`):
ASCII whitespace plus the Unicode whitespace code points. -/
def pySpace (c : Char) : Bool :=
  c == ' ' || c == '\t' || c == '\n' || c == '\r' || c == '\x0b' || c == '\x0c' ||
  c == '\x1c' || c == '\x1d' || c == '\x1e' || c == '\x1f' ||
  c == '\u0085' || c == '\u00a0' || c == '\u1680' ||
  c == '\u2000' || c == '\u2001' || c == '\u2002' || c == '\u2003' ||
  c == '\u2004' || c == '\u2005' || c == '\u2006' || c == '\u2007' ||
  c == '\u2008' || c == '\u2009' || c == '\u200a' ||
  c == '\u2028' || c == '\u2029' || c == '\u202f' || c == '\u205f' ||
  c == '\u3000'

/-- Digit characters (`[0-9]`, regex `\d` over the text handled here). -/
def isDigitC (c : Char) : Bool := '0' ≤ c && c ≤ '9'

/-- ASCII letters (`[A-Za-z]`). -/
def isAlphaC (c : Char) : Bool := ('a' ≤ c && c ≤ 'z') || ('A' ≤ c && c ≤ 'Z')

/-- Word characters for the regex `\b` boundary (`\w = [A-Za-z0-9_]` over the
ASCII text this pipeline handles). -/
def isWordC (c : Char) : Bool := isAlphaC c || isDigitC c || c == '_'

/-- ASCII lower-casing of one character (Python `str.lower()` over the ASCII
keywords and month names this pipeline compares). -/
def lowerC (c : Char) : Char := c.toLower

/-- Lower-case a whole string. -/
def lowerS (s : Str) : Str := s.map lowerC

/-- First step of `_normalize_text`: `text.replace(" ", " ")` and the
replacement of en dash, em dash and figure dash with `-`. -/
def replaceDashNbsp (s : Str) : Str :=
  s.map fun c =>
    if c = '\u00a0' then ' '
    else if c = '\u2013' then '-'
    else if c = '\u2014' then '-'
    else if c = '\u2012' then '-'
    else c

/-- `re.sub(r"[ \t]+", " ", s)`: each maximal run of spaces/tabs becomes one
space.  A blank character followed by another blank is dropped; the last blank
of a run is emitted as a single space. -/
def sub1 : Str → Str
  | [] => []
  | c :: cs =>
    if isBlankC c then
      match cs with
      | [] => [' ']
      | c2 :: _ => if isBlankC c2 then sub1 cs else ' ' :: sub1 cs
    else c :: sub1 cs

/-- Worker for `re.sub(r"\s*\n\s*", "\n", s)`.  `buf` is the whitespace run
currently being read; when the run ends (or the string does) it is flushed:
a run containing a newline collapses to a single `'\n'`, any other run is
kept verbatim — exactly the effect of the greedy regex, whose every match is
a maximal whitespace run containing at least one newline. -/
def sub2aux : Str → Str → Str
  | buf, [] => if '\n' ∈ buf then ['\n'] else buf
  | buf, c :: cs =>
    if pySpace c then sub2aux (buf ++ [c]) cs
    else (if '\n' ∈ buf then ['\n'] else buf) ++ c :: sub2aux [] cs

/-- `re.sub(r"\s*\n\s*", "\n", s)`. -/
def sub2 (s : Str) : Str := sub2aux [] s

/-- Trailing-whitespace trim by structural recursion: a character is kept
when something after it survives; a final whitespace run is dropped. -/
def rstrip : Str → Str
  | [] => []
  | c :: cs =>
    let r := rstrip cs
    if r.isEmpty then (if pySpace c then [] else [c]) else c :: r

/-- `str.strip()`: drop leading and trailing whitespace. -/
def pstrip (s : Str) : Str := rstrip (s.dropWhile pySpace)

/-- `_normalize_text` (main.py lines 139-150): replace NBSP and dash variants,
collapse space/tab runs, trim whitespace around line breaks, strip. -/
def normalize_text (s : Str) : Str :=
  pstrip (sub2 (sub1 (replaceDashNbsp s)))

example : normalize_text "  a \t b –  \n\n  c  ".toList = "a b -\nc".toList := by
  decide

/-! ## Dates (`datetime.date`) -/

/-- A calendar date, the embedding of `datetime.date`. -/
structure CalDate where
  year  : Nat
  month : Nat
  day   : Nat
deriving DecidableEq, Repr

/-- `datetime.date` comparison `a < b`: lexicographic on (year, month, day). -/
def dateLtB (a b : CalDate) : Bool :=
  a.year < b.year ||
    (a.year == b.year &&
      (a.month < b.month || (a.month == b.month && a.day < b.day)))

/-- `datetime.date` comparison `a >= b`. -/
def dateGeB (a b : CalDate) : Bool := dateLtB b a || a == b

/-- Gregorian leap-year rule (as used by `datetime.date`). -/
def isLeap (y : Nat) : Bool := (y % 4 == 0 && y % 100 != 0) || y % 400 == 0

/-- Number of days of month `m` of year `y` (0 for an invalid month index). -/
def daysInMonth (y m : Nat) : Nat :=
  match m with
  | 1 => 31
  | 2 => if isLeap y then 29 else 28
  | 3 => 31
  | 4 => 30
  | 5 => 31
  | 6 => 30
  | 7 => 31
  | 8 => 31
  | 9 => 30
  | 10 => 31
  | 11 => 30
  | 12 => 31
  | _ => 0

/-- The `datetime.date(y, m, d)` constructor: `some` exactly when the triple is
a valid Gregorian date with `datetime.MINYEAR <= y <= datetime.MAXYEAR`;
`none` models the `ValueError` that `strptime` lets escape to the caller. -/
def mkDate? (y m d : Nat) : Option CalDate :=
  if 1 ≤ y && y ≤ 9999 && 1 ≤ m && m ≤ 12 && 1 ≤ d && d ≤ daysInMonth y m then
    some ⟨y, m, d⟩
  else none

/-- Validity predicate matching `mkDate?`. -/
def validDate (dt : CalDate) : Bool :=
  1 ≤ dt.year && dt.year ≤ 9999 && 1 ≤ dt.month && dt.month ≤ 12 &&
    1 ≤ dt.day && dt.day ≤ daysInMonth dt.year dt.month

/-! ## Digit strings and month-name tables -/

/-- Numeric value of a decimal digit character. -/
def digitVal (c : Char) : Nat := c.toNat - '0'.toNat

/-- The decimal digit character for `n < 10`. -/
def digitChar (n : Nat) : Char :=
  if n = 0 then '0' else if n = 1 then '1' else if n = 2 then '2'
  else if n = 3 then '3' else if n = 4 then '4' else if n = 5 then '5'
  else if n = 6 then '6' else if n = 7 then '7' else if n = 8 then '8'
  else '9'

/-- Value of an all-digit, nonempty token; `none` otherwise. -/
def strNat? (t : Str) : Option Nat :=
  if !t.isEmpty && t.all isDigitC then
    some (t.foldl (fun n c => n * 10 + digitVal c) 0)
  else none

/-- Fuel-driven big-endian decimal rendering; `fuel > n` suffices. -/
def natCharsF : Nat → Nat → Str
  | 0, _ => []
  | f + 1, n => if n < 10 then [digitChar n] else natCharsF f (n / 10) ++ [digitChar (n % 10)]

/-- Decimal rendering of a natural number (the `%Y` field of `strftime` on
glibc prints the year unpadded). -/
def natChars (n : Nat) : Str := natCharsF (n + 1) n

/-- Two-digit zero padding, the `%d` field of `strftime`. -/
def pad2 (n : Nat) : Str := if n < 10 then '0' :: natChars n else natChars n

/-- Full month names recognized by `strptime`'s `%B` (match is
case-insensitive), keyed lower-case. -/
def monthFullNames : List (Str × Nat) :=
  [("january".toList, 1), ("february".toList, 2), ("march".toList, 3),
   ("april".toList, 4), ("may".toList, 5), ("june".toList, 6),
   ("july".toList, 7), ("august".toList, 8), ("september".toList, 9),
   ("october".toList, 10), ("november".toList, 11), ("december".toList, 12)]

/-- Abbreviated month names recognized by `strptime`'s `%b`. -/
def monthAbbrNames : List (Str × Nat) :=
  [("jan".toList, 1), ("feb".toList, 2), ("mar".toList, 3), ("apr".toList, 4),
   ("may".toList, 5), ("jun".toList, 6), ("jul".toList, 7), ("aug".toList, 8),
   ("sep".toList, 9), ("oct".toList, 10), ("nov".toList, 11), ("dec".toList, 12)]

/-- Month number of a token equal (case-insensitively) to a full month name. -/
def monthFull? (t : Str) : Option Nat :=
  (monthFullNames.find? (fun p => p.1 == lowerS t)).map (·.2)

/-- Month number of a token equal (case-insensitively) to an abbreviation. -/
def monthAbbr? (t : Str) : Option Nat :=
  (monthAbbrNames.find? (fun p => p.1 == lowerS t)).map (·.2)

/-- Display month name of month `m` (`strftime` `%B`). -/
def monthName (m : Nat) : Str :=
  match m with
  | 1 => "January".toList | 2 => "February".toList | 3 => "March".toList
  | 4 => "April".toList | 5 => "May".toList | 6 => "June".toList
  | 7 => "July".toList | 8 => "August".toList | 9 => "September".toList
  | 10 => "October".toList | 11 => "November".toList | 12 => "December".toList
  | _ => []

/-- `date.strftime("%d %B %Y")`, the pretty form used throughout the source. -/
def fmtDate (dt : CalDate) : Str :=
  pad2 dt.day ++ ' ' :: monthName dt.month ++ ' ' :: natChars dt.year

/-! ## `_parse_one_date` (main.py lines 156-174) -/

/-- `strptime`'s `%d` field read from a whole token: one or two digits with
value between 1 and 31. -/
def dayTok? (t : Str) : Option Nat :=
  match strNat? t with
  | some v => if 1 ≤ v && v ≤ 31 && t.length ≤ 2 then some v else none
  | none => none

/-- `strptime`'s `%m` field read from a whole token: one or two digits with
value between 1 and 12. -/
def monthTok? (t : Str) : Option Nat :=
  match strNat? t with
  | some v => if 1 ≤ v && v ≤ 12 && t.length ≤ 2 then some v else none
  | none => none

/-- `strptime`'s `%Y` field read from a whole token: exactly four digits. -/
def yearTok? (t : Str) : Option Nat :=
  if t.length == 4 then strNat? t else none

/-- Whitespace tokenization: in a compiled `strptime` format, a blank matches
`\s+`, so a format such as `"%d %B %Y"` matches exactly the strings whose
whitespace-separated token list fits the three fields. -/
def splitWsAux : Str → Str → List Str
  | buf, [] => if buf.isEmpty then [] else [buf]
  | buf, c :: cs =>
    if pySpace c then
      if buf.isEmpty then splitWsAux [] cs else buf :: splitWsAux [] cs
    else splitWsAux (buf ++ [c]) cs

/-- Split on every character satisfying `p`, keeping empty pieces
(`re.split` semantics). -/
def splitOnAux (p : Char → Bool) : Str → Str → List Str
  | buf, [] => [buf]
  | buf, c :: cs => if p c then buf :: splitOnAux p [] cs else splitOnAux p (buf ++ [c]) cs

/-- Split on separator characters, keeping empty pieces. -/
def splitOnC (p : Char → Bool) (s : Str) : List Str := splitOnAux p [] s

/-- Format `"%d %B %Y"` (e.g. `15 November 2025`). -/
def tmpl_dBY (t : Str) : Option CalDate :=
  match splitWsAux [] t with
  | [a, b, c] => do
    let d ← dayTok? a
    let mo ← monthFull? b
    let y ← yearTok? c
    mkDate? y mo d
  | _ => none

/-- Format `"%B %d %Y"` (e.g. `November 15 2025`). -/
def tmpl_BdY (t : Str) : Option CalDate :=
  match splitWsAux [] t with
  | [a, b, c] => do
    let mo ← monthFull? a
    let d ← dayTok? b
    let y ← yearTok? c
    mkDate? y mo d
  | _ => none

/-- Format `"%d %b %Y"` (e.g. `15 Nov 2025`). -/
def tmpl_dbY (t : Str) : Option CalDate :=
  match splitWsAux [] t with
  | [a, b, c] => do
    let d ← dayTok? a
    let mo ← monthAbbr? b
    let y ← yearTok? c
    mkDate? y mo d
  | _ => none

/-- Format `"%b %d %Y"` (e.g. `Nov 15 2025`). -/
def tmpl_bdY (t : Str) : Option CalDate :=
  match splitWsAux [] t with
  | [a, b, c] => do
    let mo ← monthAbbr? a
    let d ← dayTok? b
    let y ← yearTok? c
    mkDate? y mo d
  | _ => none

/-- Format `"%B %Y"` (e.g. `March 2026`); `strptime` defaults the day to 1. -/
def tmpl_BY (t : Str) : Option CalDate :=
  match splitWsAux [] t with
  | [a, b] => do
    let mo ← monthFull? a
    let y ← yearTok? b
    mkDate? y mo 1
  | _ => none

/-- Format `"%b %Y"` (e.g. `Mar 2026`). -/
def tmpl_bY (t : Str) : Option CalDate :=
  match splitWsAux [] t with
  | [a, b] => do
    let mo ← monthAbbr? a
    let y ← yearTok? b
    mkDate? y mo 1
  | _ => none

/-- A numeric three-field format with separator `sep` and field readers in
source order (covers `%Y-%m-%d`, `%d/%m/%Y`, `%m/%d/%Y`, …). -/
def tmplNum (sep : Char) (f1 f2 f3 : Str → Option Nat)
    (mk : Nat → Nat → Nat → Option CalDate) (t : Str) : Option CalDate :=
  match splitOnC (· == sep) t with
  | [a, b, c] => do
    let v1 ← f1 a
    let v2 ← f2 b
    let v3 ← f3 c
    mk v1 v2 v3
  | _ => none

/-- The ordered `fmts` template list of `_parse_one_date` (main.py lines
160-168): the first template that both matches and yields a constructible
date wins, a template whose `datetime` constructor raises `ValueError` falls
through to the next one, and total failure returns `none`. -/
def parse_templates (t : Str) : Option CalDate :=
  (tmpl_dBY t).orElse fun _ =>
  (tmpl_BdY t).orElse fun _ =>
  (tmpl_dbY t).orElse fun _ =>
  (tmpl_bdY t).orElse fun _ =>
  (tmpl_BY t).orElse fun _ =>
  (tmpl_bY t).orElse fun _ =>
  (tmplNum '-' yearTok? monthTok? dayTok? (fun y m d => mkDate? y m d) t).orElse fun _ =>
  (tmplNum '/' dayTok? monthTok? yearTok? (fun d m y => mkDate? y m d) t).orElse fun _ =>
  (tmplNum '/' monthTok? dayTok? yearTok? (fun m d y => mkDate? y m d) t).orElse fun _ =>
  (tmplNum '-' dayTok? monthTok? yearTok? (fun d m y => mkDate? y m d) t).orElse fun _ =>
  (tmplNum '-' monthTok? dayTok? yearTok? (fun m d y => mkDate? y m d) t).orElse fun _ =>
  (tmplNum '.' dayTok? monthTok? yearTok? (fun d m y => mkDate? y m d) t).orElse fun _ =>
  (tmplNum '.' monthTok? dayTok? yearTok? (fun m d y => mkDate? y m d) t)

/-- `_parse_one_date` (main.py lines 156-174): replace commas with spaces,
strip, then try the templates. -/
def parse_one_date (ds : Str) : Option CalDate :=
  parse_templates (pstrip (ds.map fun c => if c = ',' then ' ' else c))

/-- `_expand_range` (main.py lines 177-191): resolve both boundaries of a
textual range through `_parse_one_date` on `"month day year"`; a boundary
that fails to parse is silently dropped. -/
def expand_range (mo d1 d2 yr : Str) : List CalDate :=
  let left := mo ++ ' ' :: d1 ++ ' ' :: yr
  let right := mo ++ ' ' :: d2 ++ ' ' :: yr
  (parse_one_date left).toList ++ (parse_one_date right).toList

example : parse_one_date "15 November 2025".toList = some ⟨2025, 11, 15⟩ := by decide
example : parse_one_date "November 15, 2025".toList = some ⟨2025, 11, 15⟩ := by decide
example : parse_one_date "March 2026".toList = some ⟨2026, 3, 1⟩ := by decide
example : parse_one_date "2025-11-30".toList = some ⟨2025, 11, 30⟩ := by decide
example : parse_one_date "30/11/2025".toList = some ⟨2025, 11, 30⟩ := by decide
example : parse_one_date "03-04-2025".toList = some ⟨2025, 4, 3⟩ := by decide
example : parse_one_date "30 February 2025".toList = none := by decide
example : parse_one_date "1/2/99".toList = none := by decide
example : parse_one_date "01 March 999".toList = none := by decide
example : expand_range "February".toList "5".toList "12".toList "2026".toList
    = [⟨2026, 2, 5⟩, ⟨2026, 2, 12⟩] := by decide
example : fmtDate ⟨2026, 2, 5⟩ = "05 February 2026".toList := by decide
example : fmtDate ⟨999, 3, 1⟩ = "01 March 999".toList := by decide

/-! ## The combined date regex of `extract_and_classify_dates`
(main.py lines 213-231).  `re.finditer` scans left to right; at each
position the alternation `(rng)|(full1)|(full2)|(my)|(iso)|(num)` is tried in
order with backtracking; a successful match is consumed and scanning resumes
after it.  Each matcher below takes the character preceding the current
position (for `\b`) and the remaining text, and returns the number of
characters consumed. -/

/-- Try `f` on each element in order, returning the first success —
the backtracking order of a regex alternation or bounded quantifier. -/
def firstSome {α β : Type} (f : α → Option β) : List α → Option β
  | [] => none
  | a :: as => (f a).orElse fun _ => firstSome f as

/-- `\b` holds before the current position (all six patterns start with a
word character, so the boundary is equivalent to the previous character not
being a word character). -/
def noWordBefore (prev : Option Char) : Bool :=
  match prev with
  | none => true
  | some c => !isWordC c

/-- `\b` holds after a match ending in a word character: the next character,
if any, is not a word character. -/
def noWordAt (s : Str) : Bool :=
  match s with
  | [] => true
  | c :: _ => !isWordC c

/-- Greedy `\s+`: consume a nonempty maximal whitespace run. -/
def eatWsPlus (s : Str) : Option (Str × Nat) :=
  let k := (s.takeWhile pySpace).length
  if k == 0 then none else some (s.drop k, k)

/-- Greedy `\s*`: consume a (possibly empty) maximal whitespace run. -/
def eatWsStar (s : Str) : Str × Nat :=
  let k := (s.takeWhile pySpace).length
  (s.drop k, k)

/-- Length of the digit run at the head of `s`. -/
def digitRun (s : Str) : Nat := (s.takeWhile isDigitC).length

/-- Candidate lengths for greedy `\d{1,2}`, two digits preferred. -/
def d12cands (s : Str) : List Nat :=
  if 2 ≤ digitRun s then [2, 1] else if 1 ≤ digitRun s then [1] else []

/-- Candidate lengths for greedy `\d{2,4}`, longest first. -/
def d24cands (s : Str) : List Nat := [4, 3, 2].filter (· ≤ digitRun s)

/-- Case-insensitive literal prefix test (`pat` is given lower-case). -/
def startsWithCI (pat : Str) (s : Str) : Bool := pat == lowerS (s.take pat.length)

/-- The `MONTHS` alternation (main.py line 213), expanded into literal
alternatives in backtracking order: the twelve branches in source order, and
within a branch the greedy optional suffix makes longer names come first
(e.g. `Sep(?:t(?:ember)?)?` yields september, sept, sep). -/
def monthAlts : List Str :=
  ["january".toList, "jan".toList, "february".toList, "feb".toList,
   "march".toList, "mar".toList, "april".toList, "apr".toList, "may".toList,
   "june".toList, "jun".toList, "july".toList, "jul".toList,
   "august".toList, "aug".toList,
   "september".toList, "sept".toList, "sep".toList,
   "october".toList, "oct".toList, "november".toList, "nov".toList,
   "december".toList, "dec".toList]

/-- Candidate lengths of a `MONTHS` match at the head of `s` (the regex is
compiled with `re.IGNORECASE`), in backtracking order. -/
def monthCands (s : Str) : List Nat :=
  (monthAlts.filter (fun p => startsWithCI p s)).map List.length

/-- Pattern 1, ranges: `\b(MONTHS)\s+(\d{1,2})\s*[–-]\s*(\d{1,2}),\s*(\d{4})\b`
(main.py line 216).  Returns the consumed length and the four captured
groups (month, first day, second day, year). -/
def matchRng (prev : Option Char) (s : Str) : Option (Nat × (Str × Str × Str × Str)) :=
  if !noWordBefore prev then none else
  firstSome (fun mLen =>
    let moStr := s.take mLen
    match eatWsPlus (s.drop mLen) with
    | none => none
    | some (s2, w1) =>
      firstSome (fun dl1 =>
        let d1Str := s2.take dl1
        let (s4, w2) := eatWsStar (s2.drop dl1)
        match s4 with
        | c :: s5 =>
          if c = '-' || c = '–' then
            let (s6, w3) := eatWsStar s5
            firstSome (fun dl2 =>
              let d2Str := s6.take dl2
              match s6.drop dl2 with
              | ',' :: s8 =>
                let (s9, w4) := eatWsStar s8
                if 4 ≤ digitRun s9 && noWordAt (s9.drop 4) then
                  some (mLen + w1 + dl1 + w2 + 1 + w3 + dl2 + 1 + w4 + 4,
                        (moStr, d1Str, d2Str, s9.take 4))
                else none
              | _ => none) (d12cands s6)
          else none
        | [] => none) (d12cands s2)) (monthCands s)

/-- Pattern 2: `\b\d{1,2}\s+MONTHS\s+\d{4}\b` (main.py line 219),
e.g. `15 November 2025`. -/
def matchFull1 (prev : Option Char) (s : Str) : Option Nat :=
  if !noWordBefore prev then none else
  firstSome (fun dl =>
    match eatWsPlus (s.drop dl) with
    | none => none
    | some (s2, w1) =>
      firstSome (fun mLen =>
        match eatWsPlus (s2.drop mLen) with
        | none => none
        | some (s4, w2) =>
          if 4 ≤ digitRun s4 && noWordAt (s4.drop 4) then
            some (dl + w1 + mLen + w2 + 4)
          else none) (monthCands s2)) (d12cands s)

/-- Pattern 3: `\bMONTHS\s+\d{1,2},\s*\d{4}\b` (main.py line 220),
e.g. `November 15, 2025`. -/
def matchFull2 (prev : Option Char) (s : Str) : Option Nat :=
  if !noWordBefore prev then none else
  firstSome (fun mLen =>
    match eatWsPlus (s.drop mLen) with
    | none => none
    | some (s2, w1) =>
      firstSome (fun dl =>
        match s2.drop dl with
        | ',' :: s3 =>
          let (s4, w2) := eatWsStar s3
          if 4 ≤ digitRun s4 && noWordAt (s4.drop 4) then
            some (mLen + w1 + dl + 1 + w2 + 4)
          else none
        | _ => none) (d12cands s2)) (monthCands s)

/-- Pattern 4: `\bMONTHS\s+\d{4}\b` (main.py line 223), e.g. `March 2026`. -/
def matchMY (prev : Option Char) (s : Str) : Option Nat :=
  if !noWordBefore prev then none else
  firstSome (fun mLen =>
    match eatWsPlus (s.drop mLen) with
    | none => none
    | some (s2, w1) =>
      if 4 ≤ digitRun s2 && noWordAt (s2.drop 4) then some (mLen + w1 + 4)
      else none) (monthCands s)

/-- Pattern 5: `\b\d{4}-\d{2}-\d{2}\b` (main.py line 226). -/
def matchISO (prev : Option Char) (s : Str) : Option Nat :=
  if !noWordBefore prev then none else
  if 4 ≤ digitRun s then
    match s.drop 4 with
    | '-' :: s1 =>
      if 2 ≤ digitRun s1 then
        match s1.drop 2 with
        | '-' :: s2 =>
          if 2 ≤ digitRun s2 && noWordAt (s2.drop 2) then some 10 else none
        | _ => none
      else none
    | _ => none
  else none

/-- The separator class `[\/.-]` of the numeric pattern. -/
def isSepNum (c : Char) : Bool := c == '/' || c == '.' || c == '-'

/-- Pattern 6: `\b\d{1,2}[\/.-]\d{1,2}[\/.-]\d{2,4}\b` (main.py line 227). -/
def matchNum (prev : Option Char) (s : Str) : Option Nat :=
  if !noWordBefore prev then none else
  firstSome (fun dl1 =>
    match s.drop dl1 with
    | c1 :: s1 =>
      if isSepNum c1 then
        firstSome (fun dl2 =>
          match s1.drop dl2 with
          | c2 :: s2 =>
            if isSepNum c2 then
              firstSome (fun dl3 =>
                if noWordAt (s2.drop dl3) then some (dl1 + 1 + dl2 + 1 + dl3)
                else none) (d24cands s2)
            else none
          | [] => none) (d12cands s1)
      else none
    | [] => none) (d12cands s)

/-- One element of the `re.finditer` result: either the range form with its
four groups (main.py lines 237-243) or a plain matched substring. -/
inductive DMatch where
  | range (mo d1 d2 yr : Str) : DMatch
  | single (raw : Str) : DMatch
deriving DecidableEq, Repr

/-- The alternation of the six patterns in source order. -/
def tryDatePattern (prev : Option Char) (s : Str) : Option (Nat × DMatch) :=
  match matchRng prev s with
  | some (len, (mo, d1, d2, yr)) => some (len, .range mo d1 d2 yr)
  | none =>
  match matchFull1 prev s with
  | some len => some (len, .single (s.take len))
  | none =>
  match matchFull2 prev s with
  | some len => some (len, .single (s.take len))
  | none =>
  match matchMY prev s with
  | some len => some (len, .single (s.take len))
  | none =>
  match matchISO prev s with
  | some len => some (len, .single (s.take len))
  | none =>
  match matchNum prev s with
  | some len => some (len, .single (s.take len))
  | none => none

/-- Fuel-driven `re.finditer` loop: at each position try the alternation;
on a match, consume it and remember the character before the new position;
otherwise advance one character. -/
def scanDatesF : Nat → Option Char → Str → List DMatch
  | 0, _, _ => []
  | _ + 1, _, [] => []
  | f + 1, prev, c :: cs =>
    match tryDatePattern prev (c :: cs) with
    | some (len, m) =>
      m :: scanDatesF f ((c :: cs).take len).getLast? ((c :: cs).drop len)
    | none => scanDatesF f (some c) cs

/-- All matches of the combined date pattern in `s` (main.py line 231). -/
def scanDates (s : Str) : List DMatch := scanDatesF s.length none s

/-- Helper for the ordinal-suffix substitution: recognize `st`, `nd`, `rd`,
`th` (case-insensitively) at the head of `s`. -/
def ordTail (s : Str) : Option Str :=
  match s with
  | a :: b :: rest =>
    let p := [lowerC a, lowerC b]
    if p == ['s', 't'] || p == ['n', 'd'] || p == ['r', 'd'] || p == ['t', 'h'] then
      some rest
    else none
  | _ => none

/-- Fuel-driven `re.sub(r'(\d+)(st|nd|rd|th)', r'\1', raw, flags=IGNORECASE)`
(main.py line 247): a maximal digit run followed by an ordinal suffix keeps
the digits and drops the suffix. -/
def stripOrdF : Nat → Str → Str
  | 0, s => s
  | f + 1, s =>
    match s with
    | [] => []
    | c :: cs =>
      if isDigitC c then
        let run := (c :: cs).takeWhile isDigitC
        let rest := (c :: cs).dropWhile isDigitC
        match ordTail rest with
        | some rest2 => run ++ stripOrdF f rest2
        | none => run ++ stripOrdF f rest
      else c :: stripOrdF f cs

/-- Strip ordinal suffixes from day numbers. -/
def stripOrdinals (s : Str) : Str := stripOrdF s.length s

/-- Dates contributed by one match (main.py lines 235-251): the range form
expands through `_expand_range`; any other match is cleaned of ordinal
suffixes and commas and resolved through `_parse_one_date`, unparsable
matches being dropped. -/
def dmatchDates : DMatch → List CalDate
  | .range mo d1 d2 yr => expand_range mo d1 d2 yr
  | .single raw =>
    let raw1 := stripOrdinals raw
    let raw2 := raw1.map fun c => if c = ',' then ' ' else c
    (parse_one_date raw2).toList

/-- `found_dates` accumulated over all matches of the normalized text. -/
def found_dates (clean : Str) : List CalDate :=
  (scanDates clean).foldr (fun m acc => dmatchDates m ++ acc) []

/-- Sorted insertion without duplicates. -/
def insertUS (d : CalDate) : List CalDate → List CalDate
  | [] => [d]
  | x :: xs =>
    if dateLtB d x then d :: x :: xs
    else if d = x then x :: xs
    else x :: insertUS d xs

/-- `sorted(set(found_dates))` (main.py line 254): the strictly ascending
list of the distinct dates found. -/
def uniqueSorted (l : List CalDate) : List CalDate :=
  l.foldl (fun acc d => insertUS d acc) []

/-- The unique sorted date list of a document. -/
def unique_dates (text : Str) : List CalDate :=
  uniqueSorted (found_dates (normalize_text text))

/-- Result record of `extract_and_classify_dates` (main.py lines 264-269). -/
structure DatesInfo where
  all_unique_sorted : List Str
  past_count : Nat
  past_list : List Str
  upcoming_count : Nat
  upcoming_list : List Str
  total_unique : Nat
deriving DecidableEq, Repr

/-- `extract_and_classify_dates` (main.py lines 197-269).  The source reads
`today = datetime.now().date()` (line 255); the wall-clock sample is the
explicit argument `today` here. -/
def extract_and_classify_dates (text : Str) (today : CalDate) : DatesInfo :=
  let u := unique_dates text
  let past := u.filter fun d => dateLtB d today
  let upcoming := u.filter fun d => dateGeB d today
  { all_unique_sorted := u.map fmtDate
    past_count := past.length
    past_list := past.map fmtDate
    upcoming_count := upcoming.length
    upcoming_list := upcoming.map fmtDate
    total_unique := u.length }

example : scanDates "February 5-12, 2026".toList
    = [.range "February".toList "5".toList "12".toList "2026".toList] := by decide

example : (extract_and_classify_dates "February 5-12, 2026".toList ⟨2026, 1, 1⟩).upcoming_list
    = ["05 February 2026".toList, "12 February 2026".toList] := by decide

example : (extract_and_classify_dates "March 2026".toList ⟨2025, 6, 1⟩).all_unique_sorted
    = ["01 March 2026".toList] := by decide

example : extract_and_classify_dates [] ⟨2025, 6, 1⟩
    = { all_unique_sorted := [], past_count := 0, past_list := [],
        upcoming_count := 0, upcoming_list := [], total_unique := 0 } := by decide

/-! ## `extract_sections_invoked` (main.py lines 275-337)
Two pattern families are scanned over the normalized text with
`re.IGNORECASE | re.VERBOSE`; neither pattern contains a word boundary. -/

/-- Character class of the `num` group of `patt_a`: digits, letters,
parentheses, hyphen and slash. -/
def numClassC (c : Char) : Bool :=
  isDigitC c || isAlphaC c || c == '(' || c == ')' || c == '-' || c == '/'

/-- Match a sequence of case-insensitive literal words separated by `\s*`
(the shape of every `ACTS_A` alternative, e.g. `NI\s*Act`), returning the
consumed length. -/
def matchWordsCI : List Str → Str → Option Nat
  | [], _ => some 0
  | [w], s => if startsWithCI w s then some w.length else none
  | w :: ws, s =>
    if startsWithCI w s then
      let (s2, k) := eatWsStar (s.drop w.length)
      match matchWordsCI ws s2 with
      | some n => some (w.length + k + n)
      | none => none
    else none

/-- The `ACTS_A` alternation (main.py line 286) in source order. -/
def actsAlts : List (List Str) :=
  [["ipc".toList], ["crpc".toList], ["cpc".toList],
   ["ni".toList, "act".toList], ["it".toList, "act".toList],
   ["evidence".toList, "act".toList], ["pmla".toList], ["ndps".toList],
   ["arms".toList, "act".toList], ["pc".toList, "act".toList],
   ["pocso".toList], ["companies".toList, "act".toList],
   ["motor".toList, "vehicles".toList, "act".toList],
   ["contract".toList, "act".toList]]

/-- Match the optional `act` group at the head of `s`. -/
def matchActs (s : Str) : Option Nat :=
  firstSome (fun ws => matchWordsCI ws s) actsAlts

/-- Candidate consumed lengths for the keyword part of `patt_a`
(main.py line 289), in backtracking order: the `u/s` branch, then
`under` + `section`/`sec.`/`sec`, then bare `section`/`sec.`/`sec`
(the optional `under\s+` and the optional dot are greedy). -/
def aSecWordCands (s : Str) : List Nat :=
  (if startsWithCI "section".toList s then [7] else []) ++
  (if startsWithCI "sec.".toList s then [4] else []) ++
  (if startsWithCI "sec".toList s then [3] else [])

/-- All candidate keyword-part lengths at the head of `s`. -/
def aPrefCands (s : Str) : List Nat :=
  (if startsWithCI "u/s".toList s then [3] else []) ++
  (if startsWithCI "under".toList s then
    match eatWsPlus (s.drop 5) with
    | some (s2, k) => (aSecWordCands s2).map (fun n => 5 + k + n)
    | none => []
  else []) ++
  aSecWordCands s

/-- Match `patt_a` at the head of `s`: keyword part, `\s*`, the greedy
`num` group, the optional `of the` filler, `\s*`, and the optional `act`
group.  Returns (consumed length, `num` group, `act` group). -/
def matchA (s : Str) : Option (Nat × Str × Str) :=
  firstSome (fun pl =>
    let (s1, w1) := eatWsStar (s.drop pl)
    let nRun := (s1.takeWhile numClassC).length
    if nRun == 0 then none
    else
      let nums := s1.take nRun
      let (s3, w2) := eatWsStar (s1.drop nRun)
      let ofThe : Option (Str × Nat) :=
        if startsWithCI "of".toList s3 then
          match eatWsPlus (s3.drop 2) with
          | some (s4, k1) =>
            if startsWithCI "the".toList s4 then
              match eatWsPlus (s4.drop 3) with
              | some (s5, k2) => some (s5, 2 + k1 + 3 + k2)
              | none => none
            else none
          | none => none
        else none
      let s6w := match ofThe with
        | some (s5, k) => (s5, k)
        | none => (s3, 0)
      let (s7, w4) := eatWsStar s6w.1
      match matchActs s7 with
      | some alen =>
        some (pl + w1 + nRun + w2 + s6w.2 + w4 + alen, nums, s7.take alen)
      | none => some (pl + w1 + nRun + w2 + s6w.2 + w4, nums, [])
  ) (aPrefCands s)

/-- `re.finditer(patt_a, clean, ...)`: collect the (num, act) group pairs of
all non-overlapping matches, scanning left to right. -/
def scanAF : Nat → Str → List (Str × Str)
  | 0, _ => []
  | _ + 1, [] => []
  | f + 1, c :: cs =>
    match matchA (c :: cs) with
    | some (len, nums, act) => (nums, act) :: scanAF f ((c :: cs).drop len)
    | none => scanAF f cs

/-- The reference-token filter of the family-A loop (main.py line 315):
`^[0-9]+[A-Za-z()\-]+$` as a whole-token test — a nonempty digit run
followed only by letters, parentheses and hyphens. -/
def pTokOK (p : Str) : Bool :=
  let rest := p.dropWhile isDigitC
  !(p.takeWhile isDigitC).isEmpty &&
    rest.all (fun c => isAlphaC c || c == '(' || c == ')' || c == '-')

/-- Labels contributed by one family-A match (main.py lines 308-318): split
the `num` group on `[\/,]`, `\s*-\s*` or `\s+and\s+` (on the space-free
`num` group this splits at every `/`, `,` and `-`), drop empty or
non-conforming parts, and emit `Section <part>` with the act name appended
when present. -/
def partLabels (nums act : Str) : List Str :=
  (splitOnC (fun c => c == '/' || c == ',' || c == '-') nums).filterMap fun q =>
    let q2 := pstrip q
    if q2.isEmpty then none
    else if pTokOK q2 then
      some ("Section ".toList ++ q2 ++ (if act.isEmpty then [] else ' ' :: act))
    else none

/-- All family-A labels of the normalized text, in emission order. -/
def sectionsA (clean : Str) : List Str :=
  (scanAF clean.length clean).foldr (fun pr acc => partLabels pr.1 (pstrip pr.2) ++ acc) []

/-- Character class of `patt_b`'s `title` body: `[A-Za-z ]`. -/
def bClassC (c : Char) : Bool := isAlphaC c || c == ' '

/-- Character class of `patt_b`'s `code_no` group: `[0-9A-Za-z()-]`. -/
def codeNoC (c : Char) : Bool :=
  isDigitC c || isAlphaC c || c == '(' || c == ')' || c == '-'

/-- Backtracking over the greedy `[A-Za-z ]+` of `patt_b` (main.py lines
297-302): try the body length `k` from longest to shortest; at each length
require `Code` or `Act` (in that order, case-insensitively — the pattern is
compiled with `IGNORECASE`, so `[A-Z]` matches any letter), then `\s+` and a
nonempty `code_no`.  Returns (consumed length, title group, code_no group). -/
def matchBAt (s : Str) : Nat → Option (Nat × Str × Str)
  | 0 => none
  | k + 1 =>
    let tryEnd : Nat → Option (Nat × Str × Str) := fun tl =>
      match eatWsPlus (s.drop tl) with
      | some (s2, w) =>
        let nRun := (s2.takeWhile codeNoC).length
        if nRun == 0 then none
        else some (tl + w + nRun, s.take tl, s2.take nRun)
      | none => none
    ((if startsWithCI "code".toList (s.drop (1 + (k + 1))) then tryEnd (1 + (k + 1) + 4)
      else none).orElse fun _ =>
     (if startsWithCI "act".toList (s.drop (1 + (k + 1))) then tryEnd (1 + (k + 1) + 3)
      else none)).orElse fun _ =>
    matchBAt s k

/-- Match `patt_b` at the head of `s`. -/
def matchB (s : Str) : Option (Nat × Str × Str) :=
  match s with
  | c :: cs => if isAlphaC c then matchBAt (c :: cs) (cs.takeWhile bClassC).length else none
  | [] => none

/-- `re.finditer(patt_b, clean, ...)`: collect (title, code_no) group pairs. -/
def scanBF : Nat → Str → List (Str × Str)
  | 0, _ => []
  | _ + 1, [] => []
  | f + 1, c :: cs =>
    match matchB (c :: cs) with
    | some (len, title, cno) => (title, cno) :: scanBF f ((c :: cs).drop len)
    | none => scanBF f cs

/-- All family-B labels of the normalized text (main.py lines 321-327):
`<title> <code_no>` for every match whose stripped `code_no` passes the
`^[0-9A-Za-z()\-]+$` re-check. -/
def sectionsB (clean : Str) : List Str :=
  (scanBF clean.length clean).filterMap fun pr =>
    let title := pstrip pr.1
    let cno := pstrip pr.2
    if !cno.isEmpty && cno.all codeNoC then some (title ++ ' ' :: cno) else none

/-- The case-insensitive first-seen deduplication loop (main.py lines
330-335); `seen` holds the lower-cased keys already emitted. -/
def dedupCIAux : List Str → List Str → List Str
  | _, [] => []
  | seen, s :: rest =>
    let key := lowerS s
    if seen.contains key then dedupCIAux seen rest
    else s :: dedupCIAux (key :: seen) rest

/-- `extract_sections_invoked` (main.py lines 275-337): collect family-A then
family-B labels over the normalized text, deduplicate case-insensitively
keeping first-seen casing, and return the list with its length. -/
def extract_sections_invoked (text : Str) : List Str × Nat :=
  let clean := normalize_text text
  let found := sectionsA clean ++ sectionsB clean
  let dedup := dedupCIAux [] found
  (dedup, dedup.length)

example : extract_sections_invoked "Section 420 IPC and section 420 ipc".toList
    = (["Section 420 IPC".toList], 1) := by decide

example : extract_sections_invoked "u/s 138 NI Act".toList
    = (["Section 138 NI Act".toList], 1) := by decide

example : extract_sections_invoked "Franklin Penal Code 312(b)".toList
    = (["Franklin Penal Code 312(b)".toList], 1) := by decide

example : extract_sections_invoked "Section abc IPC".toList = ([], 0) := by decide

example : sectionsA "Section 420/421 IPC".toList
    = ["Section 420 IPC".toList, "Section 421 IPC".toList] := by decide

/-! ## `generate_case_timeline` (main.py lines 343-399) -/

/-- `re.sub(r'\s+', ' ', s).strip()` (main.py line 381). -/
def wsCollapseAux : Str → Str
  | [] => []
  | c :: cs =>
    if pySpace c then
      match cs with
      | [] => [' ']
      | c2 :: _ => if pySpace c2 then wsCollapseAux cs else ' ' :: wsCollapseAux cs
    else c :: wsCollapseAux cs

/-- Collapse whitespace runs to single spaces and strip. -/
def wsCollapse (s : Str) : Str := pstrip (wsCollapseAux s)

/-- `re.search(r'\b(\d{4})\b', dstr)` (main.py line 368): the first
four-digit run delimited by word boundaries, if any. -/
def findFourDigitF : Nat → Option Char → Str → Option Str
  | 0, _, _ => none
  | _ + 1, _, [] => none
  | f + 1, prev, c :: cs =>
    if noWordBefore prev && 4 ≤ digitRun (c :: cs) && noWordAt ((c :: cs).drop 4) then
      some ((c :: cs).take 4)
    else findFourDigitF f (some c) cs

/-- First `\b\d{4}\b` match of `s`. -/
def findFourDigit (s : Str) : Option Str := findFourDigitF s.length none s

/-- `re.search(rf'\b{year}\b', clean)` (main.py line 374): the start index of
the first occurrence of the literal four-digit `pat` delimited by word
boundaries. -/
def findLitIdxF (pat : Str) : Nat → Nat → Option Char → Str → Option Nat
  | 0, _, _, _ => none
  | _ + 1, _, _, [] => none
  | f + 1, pos, prev, c :: cs =>
    if noWordBefore prev && (c :: cs).take pat.length == pat
        && noWordAt ((c :: cs).drop pat.length) then
      some pos
    else findLitIdxF pat f (pos + 1) (some c) cs

/-- Index of the first `\b pat \b` occurrence in `s`. -/
def findLitIdx (pat s : Str) : Option Nat := findLitIdxF pat s.length 0 none s

/-- One timeline entry (main.py lines 388-392). -/
structure TimelineEvent where
  date : Str
  event_context : Str
  status : Str
deriving DecidableEq, Repr

/-- Build the event of one pretty date string (main.py lines 363-392):
recover the context window around the first occurrence of the date's year in
the normalized text (falling back to the 0-200 window), and attach the
status computed from re-parsing the display string against the second
wall-clock sample `now2` (line 359): `⏳ Upcoming` when it parses to a date
`≥ now2`, `✅ Completed` when it is earlier or fails to parse. -/
def mkEvent (clean : Str) (now2 : CalDate) (dstr : Str) : TimelineEvent :=
  let idx : Option Nat :=
    match findFourDigit dstr with
    | some y => findLitIdx y clean
    | none => none
  let stt := match idx with | some i => i - 120 | none => 0
  let fin := match idx with
    | some i => min clean.length (i + 160)
    | none => min clean.length 200
  let context := wsCollapse ((clean.take fin).drop stt)
  let status :=
    match parse_one_date dstr with
    | some d => if dateGeB d now2 then "⏳ Upcoming".toList else "✅ Completed".toList
    | none => "✅ Completed".toList
  { date := dstr, event_context := context, status := status }

/-- `_to_date` (main.py lines 395-396): sort key of an event, falling back to
1970-01-01 for display strings that fail to re-parse. -/
def toDateKey (s : Str) : CalDate := (parse_one_date s).getD ⟨1970, 1, 1⟩

/-- Insert `a` into the `le`-sorted list `l` after every element `b` with
`le b a` — the placement a stable ascending sort gives a newly arriving
element. -/
def sortInsert {α : Type} (le : α → α → Bool) (a : α) : List α → List α
  | [] => [a]
  | b :: bs => if le b a then b :: sortInsert le a bs else a :: b :: bs

/-- Stable ascending sort (the semantics of Python's `list.sort(key=...)`):
left-to-right insertion keeps equal-key elements in arrival order. -/
def pySort {α : Type} (le : α → α → Bool) (l : List α) : List α :=
  l.foldl (fun acc a => sortInsert le a acc) []

/-- `generate_case_timeline` (main.py lines 343-399).  The source samples the
wall clock twice per call: once inside its `extract_and_classify_dates` call
(line 255, argument `now1` here) and once for the event statuses (line 359,
argument `now2` here). -/
def generate_case_timeline (text : Str) (now1 now2 : CalDate) : List TimelineEvent :=
  let clean := normalize_text text
  let info := extract_and_classify_dates clean now1
  let events := info.all_unique_sorted.map (mkEvent clean now2)
  pySort (fun a b => dateGeB (toDateKey b.date) (toDateKey a.date)) events

/-! ## `detect_case_status` (main.py lines 404-424) -/

/-- Python's substring test `needle in hay` over list-modelled strings. -/
def strContains (hay needle : Str) : Bool :=
  match hay with
  | [] => needle.isEmpty
  | _ :: cs => needle == hay.take needle.length || strContains cs needle


/-- `detect_case_status` (main.py lines 404-424).  `upcoming_count` is the
value of `metadata.get("dates", {}).get("upcoming", {}).get("count", 0)`. -/
def detect_case_status (summary_text : Str) (upcoming_count : Nat) : Str :=
  let text := lowerS summary_text
  if (strContains text "judgment".toList && strContains text "delivered".toList)
      || (strContains text "final order".toList && strContains text "issued".toList) then
    "Closed".toList
  else if 0 < upcoming_count then
    "Ongoing".toList
  else if ["dismissed".toList, "acquitted".toList, "convicted".toList,
           "sentenced".toList].any (fun k => strContains text k) then
    "Closed".toList
  else
    "Ongoing".toList

example :
    (generate_case_timeline "The hearing is scheduled for 15 November 2025.".toList
      ⟨2025, 1, 1⟩ ⟨2025, 1, 1⟩).map (fun e => (e.date, e.status))
    = [("15 November 2025".toList, "⏳ Upcoming".toList)] := by decide

example :
    (generate_case_timeline "0999-03-01 and 1500-04-02".toList
      ⟨2025, 1, 1⟩ ⟨2025, 1, 1⟩).map (fun e => (e.date, e.status))
    = [("02 April 1500".toList, "✅ Completed".toList),
       ("01 March 999".toList, "✅ Completed".toList)] := by decide

example : detect_case_status "The judgment was delivered on time.".toList 2
    = "Closed".toList := by decide

example : detect_case_status [] 0 = "Ongoing".toList := by decide

/-! ## Order facts about `datetime.date` comparisons -/

theorem dateGeB_eq_not_ltB (a b : CalDate) : dateGeB a b = !dateLtB a b := by
  rcases a with ⟨a1, a2, a3⟩; rcases b with ⟨b1, b2, b3⟩
  rw [Bool.eq_iff_iff]
  simp [dateGeB, dateLtB, CalDate.mk.injEq]
  omega

theorem dateLtB_trans {a b c : CalDate} (h1 : dateLtB a b = true)
    (h2 : dateLtB b c = true) : dateLtB a c = true := by
  rcases a with ⟨a1, a2, a3⟩; rcases b with ⟨b1, b2, b3⟩; rcases c with ⟨c1, c2, c3⟩
  simp [dateLtB] at h1 h2 ⊢
  omega

theorem dateLtB_cases (a b : CalDate) :
    dateLtB a b = true ∨ a = b ∨ dateLtB b a = true := by
  rcases a with ⟨a1, a2, a3⟩; rcases b with ⟨b1, b2, b3⟩
  simp [dateLtB, CalDate.mk.injEq]
  omega

theorem dateLtB_irrefl (a : CalDate) : dateLtB a a = false := by
  rcases a with ⟨a1, a2, a3⟩
  simp [dateLtB]

/-! ## `sorted(set(...))`: facts about `insertUS` and `uniqueSorted` -/

theorem mem_insertUS {x d : CalDate} {l : List CalDate} :
    x ∈ insertUS d l ↔ x = d ∨ x ∈ l := by
  induction l with
  | nil => simp [insertUS]
  | cons b bs ih =>
    by_cases h1 : dateLtB d b = true
    · simp [insertUS, h1]
    · by_cases h2 : d = b
      · subst h2
        simp [insertUS, h1]
      · have he : insertUS d (b :: bs) = b :: insertUS d bs := by
          simp [insertUS, h1, h2]
        rw [he]
        simp [ih]
        tauto

theorem pairwise_insertUS {d : CalDate} {l : List CalDate}
    (h : l.Pairwise (fun a b => dateLtB a b = true)) :
    (insertUS d l).Pairwise (fun a b => dateLtB a b = true) := by
  induction l with
  | nil => simp [insertUS]
  | cons b bs ih =>
    rcases List.pairwise_cons.mp h with ⟨hb, hbs⟩
    by_cases h1 : dateLtB d b = true
    · have he : insertUS d (b :: bs) = d :: b :: bs := by simp [insertUS, h1]
      rw [he]
      refine List.pairwise_cons.mpr ⟨?_, h⟩
      intro x hx
      rcases List.mem_cons.mp hx with rfl | hx
      · exact h1
      · exact dateLtB_trans h1 (hb x hx)
    · by_cases h2 : d = b
      · subst h2
        have he : insertUS d (d :: bs) = d :: bs := by
          simp [insertUS, dateLtB_irrefl]
        rw [he]
        exact h
      · have he : insertUS d (b :: bs) = b :: insertUS d bs := by
          simp [insertUS, h1, h2]
        rw [he]
        refine List.pairwise_cons.mpr ⟨?_, ih hbs⟩
        intro x hx
        rcases mem_insertUS.mp hx with rfl | hx
        · rcases dateLtB_cases b x with hc | hc | hc
          · exact hc
          · exact absurd hc.symm h2
          · exact absurd hc h1
        · exact hb x hx

theorem uniqueSorted_facts (l : List CalDate) :
    (uniqueSorted l).Pairwise (fun a b => dateLtB a b = true) ∧
      ∀ x, (x ∈ uniqueSorted l ↔ x ∈ l) := by
  have main : ∀ (l : List CalDate) (acc : List CalDate),
      acc.Pairwise (fun a b => dateLtB a b = true) →
      (l.foldl (fun acc d => insertUS d acc) acc).Pairwise
          (fun a b => dateLtB a b = true) ∧
        ∀ x, (x ∈ l.foldl (fun acc d => insertUS d acc) acc ↔ x ∈ acc ∨ x ∈ l) := by
    intro l
    induction l with
    | nil => intro acc hacc; simpa using hacc
    | cons d ds ih =>
      intro acc hacc
      have h1 := ih (insertUS d acc) (pairwise_insertUS hacc)
      refine ⟨h1.1, ?_⟩
      intro x
      rw [List.foldl_cons, (h1.2 x), mem_insertUS]
      simp
      tauto
  have h := main l [] (by simp)
  simp only [uniqueSorted]
  refine ⟨h.1, fun x => ?_⟩
  rw [h.2 x]
  simp

/-! ## C1: classification partitions the unique date list -/

theorem extract_past_list_eq (text : Str) (R : CalDate) :
    (extract_and_classify_dates text R).past_list
      = ((unique_dates text).filter (fun d => dateLtB d R)).map fmtDate := rfl

theorem extract_upcoming_list_eq (text : Str) (R : CalDate) :
    (extract_and_classify_dates text R).upcoming_list
      = ((unique_dates text).filter (fun d => dateGeB d R)).map fmtDate := rfl

theorem extract_all_list_eq (text : Str) (R : CalDate) :
    (extract_and_classify_dates text R).all_unique_sorted
      = (unique_dates text).map fmtDate := rfl

theorem extract_past_count_eq (text : Str) (R : CalDate) :
    (extract_and_classify_dates text R).past_count
      = ((unique_dates text).filter (fun d => dateLtB d R)).length := rfl

theorem extract_upcoming_count_eq (text : Str) (R : CalDate) :
    (extract_and_classify_dates text R).upcoming_count
      = ((unique_dates text).filter (fun d => dateGeB d R)).length := rfl

theorem extract_total_eq (text : Str) (R : CalDate) :
    (extract_and_classify_dates text R).total_unique = (unique_dates text).length := rfl

/-- The two filtered lists rebuild the whole unique list. -/
theorem filter_classify_perm (u : List CalDate) (R : CalDate) :
    (u.filter (fun d => dateLtB d R) ++ u.filter (fun d => dateGeB d R)).Perm u := by
  have hcongr : u.filter (fun d => dateGeB d R) = u.filter (fun d => !dateLtB d R) :=
    List.filter_congr (fun d _ => dateGeB_eq_not_ltB d R)
  rw [hcongr]
  exact List.filter_append_perm (fun d => dateLtB d R) u

/-- C1: for every text and reference date, every entry of the past list of
`extract_and_classify_dates` displays a found date strictly before the
reference, every entry of the upcoming list displays a found date on or
after the reference (a date equal to the reference is listed as upcoming),
the past and upcoming lists partition `all_unique_sorted` with no overlap
and no omission, and the two counts add up to `total_unique`. -/
theorem C1_classification_partitions (text : Str) (R : CalDate) :
    (∀ s ∈ (extract_and_classify_dates text R).past_list,
        ∃ d, d ∈ unique_dates text ∧ dateLtB d R = true ∧ s = fmtDate d) ∧
    (∀ s ∈ (extract_and_classify_dates text R).upcoming_list,
        ∃ d, d ∈ unique_dates text ∧ dateGeB d R = true ∧ s = fmtDate d) ∧
    (∀ d ∈ unique_dates text, d = R →
        fmtDate d ∈ (extract_and_classify_dates text R).upcoming_list) ∧
    (extract_and_classify_dates text R).all_unique_sorted.Perm
      ((extract_and_classify_dates text R).past_list
        ++ (extract_and_classify_dates text R).upcoming_list) ∧
    (extract_and_classify_dates text R).past_count
        + (extract_and_classify_dates text R).upcoming_count
      = (extract_and_classify_dates text R).total_unique := by
  refine ⟨?_, ?_, ?_, ?_, ?_⟩
  · intro s hs
    rw [extract_past_list_eq] at hs
    rcases List.mem_map.mp hs with ⟨d, hd, rfl⟩
    rcases List.mem_filter.mp hd with ⟨hdu, hdR⟩
    exact ⟨d, hdu, hdR, rfl⟩
  · intro s hs
    rw [extract_upcoming_list_eq] at hs
    rcases List.mem_map.mp hs with ⟨d, hd, rfl⟩
    rcases List.mem_filter.mp hd with ⟨hdu, hdR⟩
    exact ⟨d, hdu, hdR, rfl⟩
  · intro d hd hdR
    subst hdR
    rw [extract_upcoming_list_eq]
    refine List.mem_map.mpr ⟨d, List.mem_filter.mpr ⟨hd, ?_⟩, rfl⟩
    simp [dateGeB]
  · rw [extract_all_list_eq, extract_past_list_eq, extract_upcoming_list_eq,
      ← List.map_append]
    exact (List.Perm.map fmtDate (filter_classify_perm (unique_dates text) R)).symm
  · rw [extract_past_count_eq, extract_upcoming_count_eq, extract_total_eq]
    have h := (filter_classify_perm (unique_dates text) R).length_eq
    simpa using h

/-- C1 witness: the generic theorem applied at concrete inputs, including a
date equal to the reference (which lands in the upcoming list). -/
theorem C1_classification_partitions_witness :
    (∃ d, d ∈ unique_dates "2024-01-05 and 15 November 2025".toList
        ∧ dateLtB d ⟨2025, 1, 1⟩ = true ∧ "05 January 2024".toList = fmtDate d) ∧
    (∃ d, d ∈ unique_dates "2024-01-05 and 15 November 2025".toList
        ∧ dateGeB d ⟨2025, 1, 1⟩ = true ∧ "15 November 2025".toList = fmtDate d) ∧
    fmtDate ⟨2024, 1, 5⟩
      ∈ (extract_and_classify_dates "2024-01-05 and 15 November 2025".toList
          ⟨2024, 1, 5⟩).upcoming_list := by
  refine ⟨(C1_classification_partitions _ ⟨2025, 1, 1⟩).1 _ ?_,
    (C1_classification_partitions _ ⟨2025, 1, 1⟩).2.1 _ ?_,
    (C1_classification_partitions _ ⟨2024, 1, 5⟩).2.2.1 ⟨2024, 1, 5⟩ ?_ rfl⟩
  · decide
  · decide
  · decide

/-! ## Round trip: `_parse_one_date` recovers a date from its `strftime`
form `"DD Month YYYY"` whenever the year prints with four digits. -/

theorem natCharsF_fuel : ∀ (f g n : Nat), n < f → n < g → natCharsF f n = natCharsF g n := by
  intro f
  induction f with
  | zero => intro g n h; omega
  | succ f ih =>
    intro g n hf hg
    rcases g with _ | g
    · omega
    by_cases h10 : n < 10
    · simp [natCharsF, h10]
    · have hn : 0 < n := by omega
      have hd : n / 10 < n := Nat.div_lt_self hn (by omega)
      simp only [natCharsF, h10, if_false]
      rw [ih g (n / 10) (by omega) (by omega)]

/-- One-step unfolding of `natChars` with the fuel hidden. -/
theorem natChars_eq (n : Nat) :
    natChars n = if n < 10 then [digitChar n]
      else natChars (n / 10) ++ [digitChar (n % 10)] := by
  by_cases h10 : n < 10
  · simp [natChars, natCharsF, h10]
  · have hn : 0 < n := by omega
    rw [if_neg h10]
    show natCharsF (n + 1) n = natCharsF (n / 10 + 1) (n / 10) ++ [digitChar (n % 10)]
    rw [show natCharsF (n + 1) n
      = if n < 10 then [digitChar n] else natCharsF n (n / 10) ++ [digitChar (n % 10)] from rfl]
    rw [if_neg h10]
    rw [natCharsF_fuel n (n / 10 + 1) (n / 10) (Nat.div_lt_self hn (by omega)) (by omega)]

theorem digitChar_isDigit (n : Nat) : isDigitC (digitChar n) = true := by
  unfold digitChar
  split_ifs <;> decide

theorem digitVal_digitChar {n : Nat} (h : n < 10) : digitVal (digitChar n) = n := by
  unfold digitChar
  split_ifs with h0 h1 h2 h3 h4 h5 h6 h7 h8
  · subst h0; decide
  · subst h1; decide
  · subst h2; decide
  · subst h3; decide
  · subst h4; decide
  · subst h5; decide
  · subst h6; decide
  · subst h7; decide
  · subst h8; decide
  · have h9 : n = 9 := by omega
    subst h9; decide

theorem natChars_digits (n : Nat) :
    (natChars n).all isDigitC = true ∧ natChars n ≠ [] := by
  induction n using Nat.strong_induction_on with
  | _ n ih =>
    rw [natChars_eq]
    by_cases h10 : n < 10
    · simp [h10, digitChar_isDigit]
    · have hn : 0 < n := by omega
      have hd : n / 10 < n := Nat.div_lt_self hn (by omega)
      have hrec := ih (n / 10) hd
      simp [h10, List.all_append, hrec.1, digitChar_isDigit]

theorem natChars_decode (n : Nat) :
    (natChars n).foldl (fun a c => a * 10 + digitVal c) 0 = n := by
  have main : ∀ (n : Nat), ∀ (a : Nat),
      (natChars n).foldl (fun a c => a * 10 + digitVal c) a = a * 10 ^ (natChars n).length + n := by
    intro n
    induction n using Nat.strong_induction_on with
    | _ n ih =>
      intro a
      rw [natChars_eq]
      by_cases h10 : n < 10
      · simp [h10, digitVal_digitChar h10]
      · have hn : 0 < n := by omega
        have hd : n / 10 < n := Nat.div_lt_self hn (by omega)
        simp only [h10, if_false, List.foldl_append, List.length_append,
          List.foldl_cons, List.foldl_nil, List.length_cons, List.length_nil]
        rw [ih (n / 10) hd a]
        rw [digitVal_digitChar (Nat.mod_lt n (by omega))]
        have : a * 10 ^ ((natChars (n / 10)).length + (0 + 1))
            = a * 10 ^ (natChars (n / 10)).length * 10 := by ring
        rw [this]
        omega
  have h := main n 0
  simpa using h

theorem strNat?_natChars (n : Nat) : strNat? (natChars n) = some n := by
  have h1 := natChars_digits n
  have h2 := natChars_decode n
  have hne : (natChars n).isEmpty = false := by
    rcases h : natChars n with _ | ⟨c, cs⟩
    · exact absurd h h1.2
    · rfl
  simp [strNat?, hne, h1.1, h2]

theorem natChars_length_four {n : Nat} (h1 : 1000 ≤ n) (h2 : n ≤ 9999) :
    (natChars n).length = 4 := by
  have e1 : natChars n = natChars (n / 10) ++ [digitChar (n % 10)] := by
    rw [natChars_eq]; simp only [if_neg (by omega : ¬ n < 10)]
  have e2 : natChars (n / 10) = natChars (n / 10 / 10) ++ [digitChar (n / 10 % 10)] := by
    rw [natChars_eq]; simp only [if_neg (by omega : ¬ n / 10 < 10)]
  have e3 : natChars (n / 10 / 10) = natChars (n / 10 / 10 / 10)
      ++ [digitChar (n / 10 / 10 % 10)] := by
    rw [natChars_eq]; simp only [if_neg (by omega : ¬ n / 10 / 10 < 10)]
  have e4 : natChars (n / 10 / 10 / 10) = [digitChar (n / 10 / 10 / 10)] := by
    rw [natChars_eq]; simp only [if_pos (by omega : n / 10 / 10 / 10 < 10)]
  rw [e1, e2, e3, e4]
  simp

theorem yearTok?_natChars {n : Nat} (h1 : 1000 ≤ n) (h2 : n ≤ 9999) :
    yearTok? (natChars n) = some n := by
  simp [yearTok?, natChars_length_four h1 h2, strNat?_natChars]

theorem dayTok?_pad2 {d : Nat} (h1 : 1 ≤ d) (h2 : d ≤ 31) :
    dayTok? (pad2 d) = some d := by
  interval_cases d <;> decide

theorem monthFull?_monthName {m : Nat} (h1 : 1 ≤ m) (h2 : m ≤ 12) :
    monthFull? (monthName m) = some m := by
  interval_cases m <;> decide

theorem digit_not_pySpace {c : Char} (h : isDigitC c = true) : pySpace c = false := by
  by_contra hc
  rw [Bool.not_eq_false] at hc
  simp only [pySpace, Bool.or_eq_true, beq_iff_eq] at hc
  rcases hc with (((((((((((((((((((((((((((rfl | rfl) | rfl) | rfl) | rfl) | rfl) | rfl) | rfl) | rfl) | rfl) | rfl) | rfl) | rfl) | rfl) | rfl) | rfl) | rfl) | rfl) | rfl) | rfl) | rfl) | rfl) | rfl) | rfl) | rfl) | rfl) | rfl) | rfl) | rfl <;>
    exact absurd h (by decide)

theorem digit_ne_comma {c : Char} (h : isDigitC c = true) : c ≠ ',' := by
  intro hc
  subst hc
  exact absurd h (by decide)

theorem splitWsAux_append_nows {t : Str} (ht : ∀ c ∈ t, pySpace c = false) :
    ∀ (buf s : Str), splitWsAux buf (t ++ s) = splitWsAux (buf ++ t) s := by
  induction t with
  | nil => intro buf s; simp
  | cons c cs ih =>
    intro buf s
    have hc : pySpace c = false := ht c (by simp)
    show splitWsAux buf (c :: (cs ++ s)) = _
    rw [show splitWsAux buf (c :: (cs ++ s))
      = if pySpace c = true then
          (if buf.isEmpty then splitWsAux [] (cs ++ s) else buf :: splitWsAux [] (cs ++ s))
        else splitWsAux (buf ++ [c]) (cs ++ s) from rfl]
    rw [hc]
    simp only [Bool.false_eq_true, if_false]
    rw [ih (fun x hx => ht x (by simp [hx])) (buf ++ [c]) s]
    simp

theorem splitWsAux_space (buf s : Str) :
    splitWsAux buf (' ' :: s)
      = if buf.isEmpty then splitWsAux [] s else buf :: splitWsAux [] s := rfl

theorem isEmpty_false_of_ne_nil {s : Str} (h : s ≠ []) : s.isEmpty = false := by
  cases s with
  | nil => exact absurd rfl h
  | cons c cs => rfl

theorem splitWs_three {t1 t2 t3 : Str} (h1 : t1 ≠ []) (h2 : t2 ≠ []) (h3 : t3 ≠ [])
    (n1 : ∀ c ∈ t1, pySpace c = false) (n2 : ∀ c ∈ t2, pySpace c = false)
    (n3 : ∀ c ∈ t3, pySpace c = false) :
    splitWsAux [] (t1 ++ ' ' :: (t2 ++ ' ' :: t3)) = [t1, t2, t3] := by
  rw [splitWsAux_append_nows n1 [] _]
  rw [List.nil_append, splitWsAux_space, if_neg (by simp [isEmpty_false_of_ne_nil h1])]
  rw [splitWsAux_append_nows n2 [] _]
  rw [List.nil_append, splitWsAux_space, if_neg (by simp [isEmpty_false_of_ne_nil h2])]
  have e3 : splitWsAux [] t3 = [t3] := by
    have h0 := splitWsAux_append_nows n3 [] []
    rw [List.append_nil, List.nil_append] at h0
    rw [h0]
    rw [show splitWsAux t3 [] = if t3.isEmpty then [] else [t3] from rfl]
    rw [if_neg (by simp [isEmpty_false_of_ne_nil h3])]
  rw [e3]

theorem pad2_digits (d : Nat) : (pad2 d).all isDigitC = true ∧ pad2 d ≠ [] := by
  unfold pad2
  split_ifs with h
  · simp [natChars_digits d |>.1]
    decide
  · exact natChars_digits d

theorem monthName_chars {m : Nat} (h1 : 1 ≤ m) (h2 : m ≤ 12) :
    monthName m ≠ [] ∧ ∀ c ∈ monthName m, pySpace c = false ∧ c ≠ ',' := by
  interval_cases m <;> exact ⟨by decide, by decide⟩

theorem daysInMonth_le (y m : Nat) : daysInMonth y m ≤ 31 := by
  rcases m with _ | _ | _ | _ | _ | _ | _ | _ | _ | _ | _ | _ | _ | m
  all_goals simp [daysInMonth]
  split <;> omega

theorem map_comma_id {s : Str} (h : ∀ c ∈ s, c ≠ ',') :
    (s.map fun c => if c = ',' then ' ' else c) = s := by
  induction s with
  | nil => rfl
  | cons c cs ih =>
    simp only [List.map_cons]
    rw [if_neg (h c (by simp)), ih (fun x hx => h x (by simp [hx]))]

theorem dropWhile_eq_self_of_head {s : Str}
    (h : ∀ c, s.head? = some c → pySpace c = false) :
    s.dropWhile pySpace = s := by
  cases s with
  | nil => rfl
  | cons c cs =>
    rw [List.dropWhile_cons, if_neg]
    simp [h c rfl]

theorem rstrip_eq_self {s : Str}
    (h : ∀ d, s.getLast? = some d → pySpace d = false) : rstrip s = s := by
  induction s with
  | nil => rfl
  | cons c cs ih =>
    cases cs with
    | nil =>
      have hc := h c rfl
      simp [rstrip, hc]
    | cons c2 cs2 =>
      have hrec : rstrip (c2 :: cs2) = c2 :: cs2 := by
        apply ih
        intro d hd
        exact h d (by rwa [List.getLast?_cons_cons])
      rw [show rstrip (c :: c2 :: cs2)
        = if (rstrip (c2 :: cs2)).isEmpty then (if pySpace c = true then [] else [c])
          else c :: rstrip (c2 :: cs2) from rfl]
      rw [hrec]
      rfl

theorem pstrip_eq_self {s : Str} (hhead : ∀ c, s.head? = some c → pySpace c = false)
    (hlast : ∀ c, s.getLast? = some c → pySpace c = false) : pstrip s = s := by
  unfold pstrip
  rw [dropWhile_eq_self_of_head hhead]
  exact rstrip_eq_self hlast

/-- Character-level facts about `fmtDate`: no commas, and the first and last
characters are digits. -/
theorem fmtDate_chars {dt : CalDate} (hv : validDate dt = true) :
    (∀ c ∈ fmtDate dt, c ≠ ',') ∧
    (∀ c, (fmtDate dt).head? = some c → pySpace c = false) ∧
    (∀ c, (fmtDate dt).getLast? = some c → pySpace c = false) := by
  rcases dt with ⟨y, m, d⟩
  simp only [validDate, Bool.and_eq_true, decide_eq_true_eq] at hv
  obtain ⟨⟨⟨⟨⟨hv1, hv2⟩, hv3⟩, hv4⟩, hv5⟩, hv6⟩ := hv
  have hpad := pad2_digits d
  have hnat := natChars_digits y
  have hmon := monthName_chars hv3 hv4
  have hpadall : ∀ c ∈ pad2 d, isDigitC c = true := by
    intro c hc; exact (List.all_eq_true.mp hpad.1) c hc
  have hnatall : ∀ c ∈ natChars y, isDigitC c = true := by
    intro c hc; exact (List.all_eq_true.mp hnat.1) c hc
  refine ⟨?_, ?_, ?_⟩
  · intro c hc
    simp only [fmtDate] at hc
    rcases List.mem_append.mp hc with h | h
    · rcases List.mem_append.mp h with h2 | h2
      · exact digit_ne_comma (hpadall c h2)
      · rcases List.mem_cons.mp h2 with rfl | h2
        · decide
        · exact (hmon.2 c h2).2
    · rcases List.mem_cons.mp h with rfl | h2
      · decide
      · exact digit_ne_comma (hnatall c h2)
  · intro c hc
    obtain ⟨p0, ps, hp⟩ := List.exists_cons_of_ne_nil hpad.2
    have hfd : (fmtDate ⟨y, m, d⟩).head? = some p0 := by simp [fmtDate, hp]
    rw [hfd, Option.some.injEq] at hc
    subst hc
    exact digit_not_pySpace (hpadall p0 (by simp [hp]))
  · intro c hc
    have hsplit : fmtDate ⟨y, m, d⟩
        = (pad2 d ++ (' ' :: monthName m ++ [' '])) ++ natChars y := by
      simp [fmtDate]
    rw [hsplit, List.getLast?_append_of_ne_nil _ hnat.2] at hc
    exact digit_not_pySpace (hnatall c (List.mem_of_getLast?_eq_some hc))

theorem orElse_eq_some_cases {α : Type} {o : Option α} {f : Unit → Option α} {b : α}
    (h : o.orElse f = some b) : o = some b ∨ f () = some b := by
  rcases o with _ | a
  · exact Or.inr h
  · exact Or.inl h

theorem bind_eq_some_cases {α β : Type} {o : Option α} {f : α → Option β} {b : β}
    (h : o.bind f = some b) : ∃ a, o = some a ∧ f a = some b := by
  rcases o with _ | a
  · simp at h
  · exact ⟨a, rfl, h⟩

theorem mem_toList_eq_some {α : Type} {o : Option α} {x : α} (h : x ∈ o.toList) :
    o = some x := by
  rcases o with _ | a
  · simp at h
  · simp at h
    simp [h]

/-- The first `strptime` template succeeds on the `strftime` output. -/
theorem tmpl_dBY_fmt {dt : CalDate} (hv : validDate dt = true) (hy : 1000 ≤ dt.year) :
    tmpl_dBY (fmtDate dt) = some dt := by
  rcases dt with ⟨y, m, d⟩
  have hvv := hv
  simp only [validDate, Bool.and_eq_true, decide_eq_true_eq] at hvv
  obtain ⟨⟨⟨⟨⟨hv1, hv2⟩, hv3⟩, hv4⟩, hv5⟩, hv6⟩ := hvv
  have hpad := pad2_digits d
  have hnat := natChars_digits y
  have hmon := monthName_chars hv3 hv4
  have hshape : fmtDate ⟨y, m, d⟩
      = pad2 d ++ ' ' :: (monthName m ++ ' ' :: natChars y) := by
    simp [fmtDate]
  have hsplit : splitWsAux [] (fmtDate ⟨y, m, d⟩) = [pad2 d, monthName m, natChars y] := by
    rw [hshape]
    exact splitWs_three hpad.2 hmon.1 hnat.2
      (fun c hc => digit_not_pySpace ((List.all_eq_true.mp hpad.1) c hc))
      (fun c hc => (hmon.2 c hc).1)
      (fun c hc => digit_not_pySpace ((List.all_eq_true.mp hnat.1) c hc))
  have hd31 : d ≤ 31 := le_trans hv6 (daysInMonth_le y m)
  unfold tmpl_dBY
  rw [hsplit]
  simp [dayTok?_pad2 hv5 hd31, monthFull?_monthName hv3 hv4,
    yearTok?_natChars hy hv2, mkDate?]
  exact ⟨hv1, hv2, hv3, hv4, hv5, hv6⟩

/-- Round trip: `_parse_one_date` applied to `strftime("%d %B %Y")` output
recovers the date, provided the year prints with four digits. -/
theorem parse_one_date_fmt {dt : CalDate} (hv : validDate dt = true)
    (hy : 1000 ≤ dt.year) : parse_one_date (fmtDate dt) = some dt := by
  have hch := fmtDate_chars hv
  have hmap := map_comma_id hch.1
  have hstrip := pstrip_eq_self hch.2.1 hch.2.2
  unfold parse_one_date parse_templates
  rw [hmap, hstrip, tmpl_dBY_fmt hv hy]
  rfl

/-! ## Every date the extractor keeps is a valid Gregorian date -/

theorem mkDate?_valid {y m d : Nat} {dt : CalDate} (h : mkDate? y m d = some dt) :
    validDate dt = true := by
  unfold mkDate? at h
  split at h
  · rename_i hcond
    obtain rfl : CalDate.mk y m d = dt := by injection h
    exact hcond
  · simp at h

theorem tmpl_dBY_valid {t : Str} {dt : CalDate} (h : tmpl_dBY t = some dt) :
    validDate dt = true := by
  unfold tmpl_dBY at h
  split at h
  · rcases bind_eq_some_cases h with ⟨v1, _, h⟩
    rcases bind_eq_some_cases h with ⟨v2, _, h⟩
    rcases bind_eq_some_cases h with ⟨v3, _, h⟩
    exact mkDate?_valid h
  · simp at h

theorem tmpl_BdY_valid {t : Str} {dt : CalDate} (h : tmpl_BdY t = some dt) :
    validDate dt = true := by
  unfold tmpl_BdY at h
  split at h
  · rcases bind_eq_some_cases h with ⟨v1, _, h⟩
    rcases bind_eq_some_cases h with ⟨v2, _, h⟩
    rcases bind_eq_some_cases h with ⟨v3, _, h⟩
    exact mkDate?_valid h
  · simp at h

theorem tmpl_dbY_valid {t : Str} {dt : CalDate} (h : tmpl_dbY t = some dt) :
    validDate dt = true := by
  unfold tmpl_dbY at h
  split at h
  · rcases bind_eq_some_cases h with ⟨v1, _, h⟩
    rcases bind_eq_some_cases h with ⟨v2, _, h⟩
    rcases bind_eq_some_cases h with ⟨v3, _, h⟩
    exact mkDate?_valid h
  · simp at h

theorem tmpl_bdY_valid {t : Str} {dt : CalDate} (h : tmpl_bdY t = some dt) :
    validDate dt = true := by
  unfold tmpl_bdY at h
  split at h
  · rcases bind_eq_some_cases h with ⟨v1, _, h⟩
    rcases bind_eq_some_cases h with ⟨v2, _, h⟩
    rcases bind_eq_some_cases h with ⟨v3, _, h⟩
    exact mkDate?_valid h
  · simp at h

theorem tmpl_BY_valid {t : Str} {dt : CalDate} (h : tmpl_BY t = some dt) :
    validDate dt = true := by
  unfold tmpl_BY at h
  split at h
  · rcases bind_eq_some_cases h with ⟨v1, _, h⟩
    rcases bind_eq_some_cases h with ⟨v2, _, h⟩
    exact mkDate?_valid h
  · simp at h

theorem tmpl_bY_valid {t : Str} {dt : CalDate} (h : tmpl_bY t = some dt) :
    validDate dt = true := by
  unfold tmpl_bY at h
  split at h
  · rcases bind_eq_some_cases h with ⟨v1, _, h⟩
    rcases bind_eq_some_cases h with ⟨v2, _, h⟩
    exact mkDate?_valid h
  · simp at h

theorem tmplNum_valid {sep : Char} {f1 f2 f3 : Str → Option Nat}
    {mk : Nat → Nat → Nat → Option CalDate} {t : Str} {dt : CalDate}
    (hmk : ∀ a b c dt, mk a b c = some dt → validDate dt = true)
    (h : tmplNum sep f1 f2 f3 mk t = some dt) : validDate dt = true := by
  unfold tmplNum at h
  split at h
  · rcases bind_eq_some_cases h with ⟨v1, _, h⟩
    rcases bind_eq_some_cases h with ⟨v2, _, h⟩
    rcases bind_eq_some_cases h with ⟨v3, _, h⟩
    exact hmk v1 v2 v3 dt h
  · simp at h

theorem parse_templates_valid {t : Str} {dt : CalDate}
    (h : parse_templates t = some dt) : validDate dt = true := by
  unfold parse_templates at h
  rcases orElse_eq_some_cases h with h | h
  · exact tmpl_dBY_valid h
  rcases orElse_eq_some_cases h with h | h
  · exact tmpl_BdY_valid h
  rcases orElse_eq_some_cases h with h | h
  · exact tmpl_dbY_valid h
  rcases orElse_eq_some_cases h with h | h
  · exact tmpl_bdY_valid h
  rcases orElse_eq_some_cases h with h | h
  · exact tmpl_BY_valid h
  rcases orElse_eq_some_cases h with h | h
  · exact tmpl_bY_valid h
  rcases orElse_eq_some_cases h with h | h
  · exact tmplNum_valid (fun a b c dt => mkDate?_valid) h
  rcases orElse_eq_some_cases h with h | h
  · exact tmplNum_valid (fun a b c dt => mkDate?_valid) h
  rcases orElse_eq_some_cases h with h | h
  · exact tmplNum_valid (fun a b c dt => mkDate?_valid) h
  rcases orElse_eq_some_cases h with h | h
  · exact tmplNum_valid (fun a b c dt => mkDate?_valid) h
  rcases orElse_eq_some_cases h with h | h
  · exact tmplNum_valid (fun a b c dt => mkDate?_valid) h
  rcases orElse_eq_some_cases h with h | h
  · exact tmplNum_valid (fun a b c dt => mkDate?_valid) h
  · exact tmplNum_valid (fun a b c dt => mkDate?_valid) h

theorem parse_one_date_valid {s : Str} {dt : CalDate}
    (h : parse_one_date s = some dt) : validDate dt = true :=
  parse_templates_valid h

theorem expand_range_valid {mo d1 d2 yr : Str} {dt : CalDate}
    (h : dt ∈ expand_range mo d1 d2 yr) : validDate dt = true := by
  unfold expand_range at h
  rcases List.mem_append.mp h with h | h
  · exact parse_one_date_valid (mem_toList_eq_some h)
  · exact parse_one_date_valid (mem_toList_eq_some h)

theorem dmatchDates_valid {m : DMatch} {dt : CalDate} (h : dt ∈ dmatchDates m) :
    validDate dt = true := by
  cases m with
  | range mo d1 d2 yr => exact expand_range_valid h
  | single raw =>
    simp only [dmatchDates] at h
    exact parse_one_date_valid (mem_toList_eq_some h)

theorem found_dates_valid {clean : Str} {dt : CalDate} (h : dt ∈ found_dates clean) :
    validDate dt = true := by
  unfold found_dates at h
  revert h
  induction scanDates clean with
  | nil => intro h; simp at h
  | cons m ms ih =>
    intro h
    simp only [List.foldr_cons] at h
    rcases List.mem_append.mp h with h | h
    · exact dmatchDates_valid h
    · exact ih h

theorem unique_dates_valid {text : Str} {dt : CalDate} (h : dt ∈ unique_dates text) :
    validDate dt = true := by
  unfold unique_dates at h
  rw [(uniqueSorted_facts _).2 dt] at h
  exact found_dates_valid h

/-! ## Correctness of the stable sort used for timeline events -/

theorem dateGeB_total (x y : CalDate) : dateGeB x y = true ∨ dateGeB y x = true := by
  rcases dateLtB_cases x y with h | h | h
  · right
    rw [dateGeB_eq_not_ltB]
    rcases x with ⟨a1, a2, a3⟩; rcases y with ⟨b1, b2, b3⟩
    simp [dateLtB] at h ⊢
    omega
  · left
    simp [dateGeB, h]
  · left
    rw [dateGeB_eq_not_ltB]
    rcases x with ⟨a1, a2, a3⟩; rcases y with ⟨b1, b2, b3⟩
    simp [dateLtB] at h ⊢
    omega

theorem dateGeB_trans {x y z : CalDate} (h1 : dateGeB x y = true)
    (h2 : dateGeB y z = true) : dateGeB x z = true := by
  rcases x with ⟨a1, a2, a3⟩; rcases y with ⟨b1, b2, b3⟩; rcases z with ⟨c1, c2, c3⟩
  simp [dateGeB, dateLtB, CalDate.mk.injEq] at h1 h2 ⊢
  omega

theorem sortInsert_perm {α : Type} (le : α → α → Bool) (a : α) (l : List α) :
    (sortInsert le a l).Perm (a :: l) := by
  induction l with
  | nil => simp [sortInsert]
  | cons b bs ih =>
    by_cases h : le b a = true
    · rw [show sortInsert le a (b :: bs) = b :: sortInsert le a bs by simp [sortInsert, h]]
      exact (ih.cons b).trans (List.Perm.swap a b bs)
    · rw [show sortInsert le a (b :: bs) = a :: b :: bs by simp [sortInsert, h]]

theorem pySort_perm {α : Type} (le : α → α → Bool) (l : List α) :
    (pySort le l).Perm l := by
  have main : ∀ (l acc : List α),
      (l.foldl (fun acc a => sortInsert le a acc) acc).Perm (acc ++ l) := by
    intro l
    induction l with
    | nil => intro acc; simp
    | cons a as ih =>
      intro acc
      rw [List.foldl_cons]
      refine (ih (sortInsert le a acc)).trans ?_
      refine (List.Perm.append_right as (sortInsert_perm le a acc)).trans ?_
      exact List.perm_middle.symm
  simpa using main l []

theorem sortInsert_sorted {α : Type} {le : α → α → Bool}
    (htot : ∀ a b, le a b = true ∨ le b a = true)
    (htrans : ∀ a b c, le a b = true → le b c = true → le a c = true)
    {a : α} {l : List α} (h : l.Pairwise (fun x y => le x y = true)) :
    (sortInsert le a l).Pairwise (fun x y => le x y = true) := by
  induction l with
  | nil => simp [sortInsert]
  | cons b bs ih =>
    rcases List.pairwise_cons.mp h with ⟨hb, hbs⟩
    by_cases hba : le b a = true
    · rw [show sortInsert le a (b :: bs) = b :: sortInsert le a bs by simp [sortInsert, hba]]
      refine List.pairwise_cons.mpr ⟨?_, ih hbs⟩
      intro x hx
      rcases List.mem_cons.mp ((sortInsert_perm le a bs).mem_iff.mp hx) with rfl | hx
      · exact hba
      · exact hb x hx
    · rw [show sortInsert le a (b :: bs) = a :: b :: bs by simp [sortInsert, hba]]
      have hab : le a b = true := by
        rcases htot a b with hh | hh
        · exact hh
        · exact absurd hh hba
      refine List.pairwise_cons.mpr ⟨?_, h⟩
      intro x hx
      rcases List.mem_cons.mp hx with rfl | hx
      · exact hab
      · exact htrans a b x hab (hb x hx)

theorem pySort_sorted {α : Type} {le : α → α → Bool}
    (htot : ∀ a b, le a b = true ∨ le b a = true)
    (htrans : ∀ a b c, le a b = true → le b c = true → le a c = true)
    (l : List α) : (pySort le l).Pairwise (fun x y => le x y = true) := by
  have main : ∀ (l acc : List α), acc.Pairwise (fun x y => le x y = true) →
      (l.foldl (fun acc a => sortInsert le a acc) acc).Pairwise
        (fun x y => le x y = true) := by
    intro l
    induction l with
    | nil => intro acc hacc; simpa using hacc
    | cons a as ih =>
      intro acc hacc
      rw [List.foldl_cons]
      exact ih (sortInsert le a acc) (sortInsert_sorted htot htrans hacc)
  exact main l [] (by simp)

/-! ## C7: `_normalize_text` is idempotent.
`NormalizedP` is the fixed-point characterization: each stage of the pipeline
leaves a string satisfying it unchanged, and the pipeline always establishes
it. -/

/-- No two adjacent space-or-tab characters (so `re.sub(r"[ \t]+", " ")` has
nothing to collapse). -/
def RelBB (a b : Char) : Prop := ¬(isBlankC a = true ∧ isBlankC b = true)

/-- No whitespace adjacent to a newline (so `re.sub(r"\s*\n\s*", "\n")` has
nothing to trim). -/
def RelNL (a b : Char) : Prop :=
  ¬(pySpace a = true ∧ pySpace b = true ∧ (a = '\n' ∨ b = '\n'))

/-- The invariant satisfied by every output of `_normalize_text`: no
non-breaking space, no en/em/figure dash, no tab, no run of blanks longer
than one, no whitespace adjacent to a line break, and no leading or trailing
whitespace. -/
def NormalizedP (s : Str) : Prop :=
  (∀ c ∈ s, c ≠ ' ' ∧ c ≠ '–' ∧ c ≠ '—' ∧ c ≠ '‒') ∧
  '\t' ∉ s ∧
  s.Chain' RelBB ∧
  s.Chain' RelNL ∧
  (∀ c, s.head? = some c → pySpace c = false) ∧
  (∀ c, s.getLast? = some c → pySpace c = false)

theorem blank_eq_space {c : Char} (hb : isBlankC c = true) (ht : c ≠ '\t') :
    c = ' ' := by
  simp only [isBlankC, Bool.or_eq_true, beq_iff_eq] at hb
  rcases hb with h | h
  · exact h
  · exact absurd h ht

theorem blank_pySpace {c : Char} (hb : isBlankC c = true) : pySpace c = true := by
  simp only [isBlankC, Bool.or_eq_true, beq_iff_eq] at hb
  rcases hb with rfl | rfl <;> decide

theorem not_blank_of_not_space {c : Char} (h : pySpace c = false) :
    isBlankC c = false := by
  cases hb : isBlankC c
  · rfl
  · rw [blank_pySpace hb] at h
    exact absurd h (by decide)

theorem replace_fix {s : Str}
    (h : ∀ c ∈ s, c ≠ ' ' ∧ c ≠ '–' ∧ c ≠ '—' ∧ c ≠ '‒') :
    replaceDashNbsp s = s := by
  induction s with
  | nil => rfl
  | cons c cs ih =>
    obtain ⟨h1, h2, h3, h4⟩ := h c (by simp)
    have hrec := ih (fun x hx => h x (by simp [hx]))
    simp only [replaceDashNbsp, List.map_cons] at hrec ⊢
    rw [if_neg h1, if_neg h2, if_neg h3, if_neg h4, hrec]

theorem sub1_fix {s : Str} (ht : '\t' ∉ s) (hc : s.Chain' RelBB) : sub1 s = s := by
  induction s with
  | nil => rfl
  | cons a cs ih =>
    have hta : a ≠ '\t' := fun hh => ht (by simp [hh])
    have htcs : '\t' ∉ cs := fun hh => ht (by simp [hh])
    rcases List.chain'_cons'.mp hc with ⟨hpair, htail⟩
    cases cs with
    | nil =>
      by_cases hb : isBlankC a = true
      · rw [show sub1 [a] = if isBlankC a = true then [' '] else [a] from rfl,
          if_pos hb, blank_eq_space hb hta]
      · rw [show sub1 [a] = if isBlankC a = true then [' '] else [a] from rfl, if_neg hb]
    | cons c2 cs2 =>
      rw [show sub1 (a :: c2 :: cs2)
        = if isBlankC a = true then
            (if isBlankC c2 = true then sub1 (c2 :: cs2) else ' ' :: sub1 (c2 :: cs2))
          else a :: sub1 (c2 :: cs2) from rfl]
      by_cases hb : isBlankC a = true
      · have hb2 : isBlankC c2 = false := by
          cases hcc : isBlankC c2
          · rfl
          · exact absurd ⟨hb, hcc⟩ (hpair c2 rfl)
        rw [if_pos hb, if_neg (by simp [hb2]), ih htcs htail, blank_eq_space hb hta]
      · rw [if_neg hb, ih htcs htail]

theorem sub2aux_fix : ∀ (s buf : Str), '\n' ∉ buf →
    (buf ≠ [] → ∀ d, s.head? = some d → d ≠ '\n') →
    s.Chain' RelNL → sub2aux buf s = buf ++ s := by
  intro s
  induction s with
  | nil =>
    intro buf hn _ _
    rw [show sub2aux buf [] = if '\n' ∈ buf then ['\n'] else buf from rfl,
      if_neg hn, List.append_nil]
  | cons a as ih =>
    intro buf hn hbd hchain
    rcases List.chain'_cons'.mp hchain with ⟨hpair, htail⟩
    rw [show sub2aux buf (a :: as)
      = if pySpace a = true then sub2aux (buf ++ [a]) as
        else (if '\n' ∈ buf then ['\n'] else buf) ++ a :: sub2aux [] as from rfl]
    by_cases hws : pySpace a = true
    · rw [if_pos hws]
      by_cases han : a = '\n'
      · subst han
        have hbuf : buf = [] := by
          by_contra hne
          exact hbd hne '\n' rfl rfl
        subst hbuf
        cases as with
        | nil =>
          rw [show sub2aux ([] ++ ['\n']) [] = ['\n'] from rfl]
          rfl
        | cons b bs =>
          have hbn : pySpace b = false := by
            cases hpb : pySpace b
            · rfl
            · exact absurd ⟨hws, hpb, Or.inl rfl⟩ (hpair b rfl)
          rw [show sub2aux ([] ++ ['\n']) (b :: bs)
            = if pySpace b = true then sub2aux (([] ++ ['\n']) ++ [b]) bs
              else (if '\n' ∈ ([] ++ ['\n']) then ['\n'] else ([] ++ ['\n']))
                ++ b :: sub2aux [] bs from rfl]
          rw [if_neg (by simp [hbn])]
          have hrec : sub2aux [] (b :: bs) = b :: bs := by
            have := ih [] (by simp) (by simp) htail
            simpa using this
          have hrec2 : sub2aux [] bs = bs := by
            rw [show sub2aux [] (b :: bs)
              = if pySpace b = true then sub2aux ([] ++ [b]) bs
                else (if '\n' ∈ ([] : Str) then ['\n'] else ([] : Str))
                  ++ b :: sub2aux [] bs from rfl, if_neg (by simp [hbn])] at hrec
            simpa using hrec
          rw [hrec2]
          simp
      · have hn2 : '\n' ∉ buf ++ [a] := by
          intro hmem
          rcases List.mem_append.mp hmem with hmem | hmem
          · exact hn hmem
          · simp at hmem
            exact han hmem.symm
        have hbd2 : ∀ d, as.head? = some d → d ≠ '\n' := by
          intro d hd hdn
          subst hdn
          exact hpair '\n' hd ⟨hws, by decide, Or.inr rfl⟩
        rw [ih (buf ++ [a]) hn2 (fun _ => hbd2) htail]
        simp
    · rw [if_neg hws, if_neg hn]
      have hrec : sub2aux [] as = as := by
        have := ih [] (by simp) (by simp) htail
        simpa using this
      rw [hrec]

theorem sub2_fix {s : Str} (h : s.Chain' RelNL) : sub2 s = s := by
  have := sub2aux_fix s [] (by simp) (by simp) h
  simpa [sub2] using this

theorem replace_chars {s : Str} :
    ∀ c ∈ replaceDashNbsp s, c ≠ ' ' ∧ c ≠ '–' ∧ c ≠ '—' ∧ c ≠ '‒' := by
  intro c hc
  rcases List.mem_map.mp hc with ⟨x, _, rfl⟩
  split_ifs with h1 h2 h3 h4
  · decide
  · decide
  · decide
  · decide
  · exact ⟨h1, h2, h3, h4⟩

theorem sub1_chars {s : Str} {c : Char} (h : c ∈ sub1 s) : c ∈ s ∨ c = ' ' := by
  induction s with
  | nil => simp [sub1] at h
  | cons a cs ih =>
    cases cs with
    | nil =>
      by_cases hb : isBlankC a = true
      · rw [show sub1 [a] = if isBlankC a = true then [' '] else [a] from rfl,
          if_pos hb] at h
        simp at h
        exact Or.inr h
      · rw [show sub1 [a] = if isBlankC a = true then [' '] else [a] from rfl,
          if_neg hb] at h
        simp at h
        simp [h]
    | cons c2 cs2 =>
      rw [show sub1 (a :: c2 :: cs2)
        = if isBlankC a = true then
            (if isBlankC c2 = true then sub1 (c2 :: cs2) else ' ' :: sub1 (c2 :: cs2))
          else a :: sub1 (c2 :: cs2) from rfl] at h
      by_cases hb : isBlankC a = true
      · rw [if_pos hb] at h
        by_cases hb2 : isBlankC c2 = true
        · rw [if_pos hb2] at h
          rcases ih h with hh | hh
          · exact Or.inl (by simp [hh])
          · exact Or.inr hh
        · rw [if_neg hb2] at h
          rcases List.mem_cons.mp h with rfl | hh
          · exact Or.inr rfl
          · rcases ih hh with hh2 | hh2
            · exact Or.inl (by simp [hh2])
            · exact Or.inr hh2
      · rw [if_neg hb] at h
        rcases List.mem_cons.mp h with rfl | hh
        · exact Or.inl (by simp)
        · rcases ih hh with hh2 | hh2
          · exact Or.inl (by simp [hh2])
          · exact Or.inr hh2

theorem sub2aux_chars : ∀ (s buf : Str) {c : Char},
    c ∈ sub2aux buf s → c ∈ buf ∨ c ∈ s ∨ c = '\n' := by
  intro s
  induction s with
  | nil =>
    intro buf c h
    rw [show sub2aux buf [] = if '\n' ∈ buf then ['\n'] else buf from rfl] at h
    by_cases hn : '\n' ∈ buf
    · rw [if_pos hn] at h
      simp at h
      exact Or.inr (Or.inr h)
    · rw [if_neg hn] at h
      exact Or.inl h
  | cons a as ih =>
    intro buf c h
    rw [show sub2aux buf (a :: as)
      = if pySpace a = true then sub2aux (buf ++ [a]) as
        else (if '\n' ∈ buf then ['\n'] else buf) ++ a :: sub2aux [] as from rfl] at h
    by_cases hws : pySpace a = true
    · rw [if_pos hws] at h
      rcases ih (buf ++ [a]) h with hh | hh | hh
      · rcases List.mem_append.mp hh with hh2 | hh2
        · exact Or.inl hh2
        · simp at hh2
          exact Or.inr (Or.inl (by simp [hh2]))
      · exact Or.inr (Or.inl (by simp [hh]))
      · exact Or.inr (Or.inr hh)
    · rw [if_neg hws] at h
      rcases List.mem_append.mp h with hh | hh
      · by_cases hn : '\n' ∈ buf
        · rw [if_pos hn] at hh
          simp at hh
          exact Or.inr (Or.inr hh)
        · rw [if_neg hn] at hh
          exact Or.inl hh
      · rcases List.mem_cons.mp hh with rfl | hh2
        · exact Or.inr (Or.inl (by simp))
        · rcases ih [] hh2 with hh3 | hh3 | hh3
          · simp at hh3
          · exact Or.inr (Or.inl (by simp [hh3]))
          · exact Or.inr (Or.inr hh3)

theorem mem_dropWhile_sub {p : Char → Bool} {s : Str} {c : Char}
    (h : c ∈ s.dropWhile p) : c ∈ s := by
  induction s with
  | nil => simp at h
  | cons a cs ih =>
    rw [List.dropWhile_cons] at h
    by_cases hp : p a = true
    · rw [if_pos (by simp [hp])] at h
      exact List.mem_cons.mpr (Or.inr (ih h))
    · rw [if_neg (by simp [hp])] at h
      exact h

theorem rstrip_chars {s : Str} {c : Char} (h : c ∈ rstrip s) : c ∈ s := by
  induction s with
  | nil => simp [rstrip] at h
  | cons a cs ih =>
    rw [show rstrip (a :: cs)
      = if (rstrip cs).isEmpty then (if pySpace a = true then [] else [a])
        else a :: rstrip cs from rfl] at h
    by_cases he : (rstrip cs).isEmpty
    · rw [if_pos he] at h
      by_cases hp : pySpace a = true
      · rw [if_pos hp] at h
        simp at h
      · rw [if_neg hp] at h
        simp at h
        simp [h]
    · rw [if_neg he] at h
      rcases List.mem_cons.mp h with rfl | hh
      · simp
      · exact List.mem_cons.mpr (Or.inr (ih hh))

theorem rstrip_head {s : Str} {d : Char} (h : (rstrip s).head? = some d) :
    s.head? = some d := by
  induction s with
  | nil => simp [rstrip] at h
  | cons a cs _ =>
    rw [show rstrip (a :: cs)
      = if (rstrip cs).isEmpty then (if pySpace a = true then [] else [a])
        else a :: rstrip cs from rfl] at h
    by_cases he : (rstrip cs).isEmpty
    · rw [if_pos he] at h
      by_cases hp : pySpace a = true
      · rw [if_pos hp] at h
        simp at h
      · rw [if_neg hp] at h
        simpa using h
    · rw [if_neg he] at h
      simpa using h

theorem rstrip_last_not {s : Str} {d : Char} (h : (rstrip s).getLast? = some d) :
    pySpace d = false := by
  induction s with
  | nil => simp [rstrip] at h
  | cons a cs ih =>
    rw [show rstrip (a :: cs)
      = if (rstrip cs).isEmpty then (if pySpace a = true then [] else [a])
        else a :: rstrip cs from rfl] at h
    by_cases he : (rstrip cs).isEmpty
    · rw [if_pos he] at h
      by_cases hp : pySpace a = true
      · rw [if_pos hp] at h
        simp at h
      · rw [if_neg hp] at h
        simp at h
        rw [← h]
        simpa using hp
    · rw [if_neg he] at h
      have hne : rstrip cs ≠ [] := fun hh => he (by simp [hh])
      obtain ⟨x, xs, hx⟩ := List.exists_cons_of_ne_nil hne
      rw [hx, List.getLast?_cons_cons] at h
      exact ih (by rw [hx]; exact h)

theorem dropWhile_head_not {p : Char → Bool} {s : Str} {d : Char}
    (h : (s.dropWhile p).head? = some d) : p d = false := by
  induction s with
  | nil => simp at h
  | cons a cs ih =>
    rw [List.dropWhile_cons] at h
    by_cases hp : p a = true
    · rw [if_pos (by simp [hp])] at h
      exact ih h
    · rw [if_neg (by simp [hp])] at h
      simp at h
      rw [← h]
      simpa using hp

theorem chain'_dropWhile {R : Char → Char → Prop} {p : Char → Bool} {s : Str}
    (h : s.Chain' R) : (s.dropWhile p).Chain' R := by
  induction s with
  | nil => simp
  | cons a cs ih =>
    rw [List.dropWhile_cons]
    by_cases hp : p a = true
    · rw [if_pos (by simp [hp])]
      exact ih (List.chain'_cons'.mp h).2
    · rw [if_neg (by simp [hp])]
      exact h

theorem rstrip_chain {R : Char → Char → Prop} {s : Str} (h : s.Chain' R) :
    (rstrip s).Chain' R := by
  induction s with
  | nil => simp [rstrip]
  | cons a cs ih =>
    rcases List.chain'_cons'.mp h with ⟨hpair, htail⟩
    rw [show rstrip (a :: cs)
      = if (rstrip cs).isEmpty then (if pySpace a = true then [] else [a])
        else a :: rstrip cs from rfl]
    by_cases he : (rstrip cs).isEmpty
    · rw [if_pos he]
      by_cases hp : pySpace a = true
      · rw [if_pos hp]
        simp
      · rw [if_neg hp]
        simp
    · rw [if_neg he]
      refine List.chain'_cons'.mpr ⟨?_, ih htail⟩
      intro b hb
      exact hpair b (rstrip_head hb)

theorem chain'_of_forall_mem {R : Char → Char → Prop} {l : Str}
    (h : ∀ a ∈ l, ∀ b ∈ l, R a b) : l.Chain' R := by
  induction l with
  | nil => simp
  | cons a cs ih =>
    refine List.chain'_cons'.mpr ⟨?_, ?_⟩
    · intro b hb
      cases cs with
      | nil => simp at hb
      | cons c2 cs2 =>
        simp at hb
        exact h a (by simp) b (by simp [hb])
    · exact ih (fun x hx y hy => h x (by simp [hx]) y (by simp [hy]))

theorem sub1_head_blank : ∀ {s : Str} {d : Char}, (sub1 s).head? = some d →
    isBlankC d = true → ∃ e, s.head? = some e ∧ isBlankC e = true := by
  intro s
  induction s with
  | nil => intro d h; simp [sub1] at h
  | cons a cs ih =>
    intro d h hd
    by_cases hb : isBlankC a = true
    · exact ⟨a, rfl, hb⟩
    · cases cs with
      | nil =>
        rw [show sub1 [a] = if isBlankC a = true then [' '] else [a] from rfl,
          if_neg hb] at h
        simp at h
        rw [← h] at hd
        exact absurd hd hb
      | cons c2 cs2 =>
        rw [show sub1 (a :: c2 :: cs2)
          = if isBlankC a = true then
              (if isBlankC c2 = true then sub1 (c2 :: cs2) else ' ' :: sub1 (c2 :: cs2))
            else a :: sub1 (c2 :: cs2) from rfl, if_neg hb] at h
        simp at h
        rw [← h] at hd
        exact absurd hd hb

theorem sub1_good (s : Str) : '\t' ∉ sub1 s ∧ (sub1 s).Chain' RelBB := by
  induction s with
  | nil => exact ⟨by simp [sub1], by simp [sub1]⟩
  | cons a cs ih =>
    cases cs with
    | nil =>
      by_cases hb : isBlankC a = true
      · rw [show sub1 [a] = if isBlankC a = true then [' '] else [a] from rfl, if_pos hb]
        exact ⟨by simp, by simp⟩
      · rw [show sub1 [a] = if isBlankC a = true then [' '] else [a] from rfl, if_neg hb]
        refine ⟨?_, by simp⟩
        intro hmem
        simp at hmem
        exact hb (by rw [← hmem]; decide)
    | cons c2 cs2 =>
      rw [show sub1 (a :: c2 :: cs2)
        = if isBlankC a = true then
            (if isBlankC c2 = true then sub1 (c2 :: cs2) else ' ' :: sub1 (c2 :: cs2))
          else a :: sub1 (c2 :: cs2) from rfl]
      by_cases hb : isBlankC a = true
      · rw [if_pos hb]
        by_cases hb2 : isBlankC c2 = true
        · rw [if_pos hb2]
          exact ih
        · rw [if_neg hb2]
          refine ⟨?_, ?_⟩
          · intro hmem
            rcases List.mem_cons.mp hmem with hh | hh
            · exact absurd hh (by decide)
            · exact ih.1 hh
          · refine List.chain'_cons'.mpr ⟨?_, ih.2⟩
            intro b hbmem
            intro hand
            rcases sub1_head_blank hbmem hand.2 with ⟨e, he, hbe⟩
            simp at he
            rw [← he] at hbe
            rw [hbe] at hb2
            exact absurd rfl hb2
      · rw [if_neg hb]
        refine ⟨?_, ?_⟩
        · intro hmem
          rcases List.mem_cons.mp hmem with hh | hh
          · exact hb (by rw [← hh]; decide)
          · exact ih.1 hh
        · refine List.chain'_cons'.mpr ⟨?_, ih.2⟩
          intro b _
          intro hand
          exact hb hand.1

theorem RelBB_right {a b : Char} (h : pySpace b = false) : RelBB a b := by
  intro hand
  rw [blank_pySpace hand.2] at h
  exact absurd h (by decide)

theorem RelNL_right {a b : Char} (h : pySpace b = false) : RelNL a b := by
  intro hand
  rw [hand.2.1] at h
  exact absurd h (by decide)

/-- The flush of a whitespace run keeps both chain invariants: a run with a
newline collapses to the singleton, a run without one contains no newline at
all. -/
theorem flush_good {buf : Str} (hbb : buf.Chain' RelBB) :
    ((if '\n' ∈ buf then ['\n'] else buf) : Str).Chain' RelBB ∧
      ((if '\n' ∈ buf then ['\n'] else buf) : Str).Chain' RelNL := by
  by_cases hn : '\n' ∈ buf
  · rw [if_pos hn]
    exact ⟨by simp, by simp⟩
  · rw [if_neg hn]
    refine ⟨hbb, chain'_of_forall_mem ?_⟩
    intro a ha b hb
    intro hand
    rcases hand.2.2 with rfl | rfl
    · exact hn ha
    · exact hn hb

theorem sub2aux_good : ∀ (s buf : Str), (buf ++ s).Chain' RelBB →
    (sub2aux buf s).Chain' RelBB ∧ (sub2aux buf s).Chain' RelNL := by
  intro s
  induction s with
  | nil =>
    intro buf h
    rw [List.append_nil] at h
    rw [show sub2aux buf [] = if '\n' ∈ buf then ['\n'] else buf from rfl]
    exact flush_good h
  | cons a as ih =>
    intro buf h
    rw [show sub2aux buf (a :: as)
      = if pySpace a = true then sub2aux (buf ++ [a]) as
        else (if '\n' ∈ buf then ['\n'] else buf) ++ a :: sub2aux [] as from rfl]
    by_cases hws : pySpace a = true
    · rw [if_pos hws]
      exact ih (buf ++ [a]) (by simpa using h)
    · rw [if_neg hws]
      rcases List.chain'_append.mp h with ⟨hbuf, hcons, hbound⟩
      have hrec := ih [] (by simpa using (List.chain'_cons'.mp hcons).2)
      have hfl := flush_good hbuf
      have hconsBB : (a :: sub2aux [] as).Chain' RelBB :=
        List.chain'_cons'.mpr ⟨fun b _ => fun hand => hws (blank_pySpace hand.1), hrec.1⟩
      have hconsNL : (a :: sub2aux [] as).Chain' RelNL :=
        List.chain'_cons'.mpr ⟨fun b _ => fun hand => hws hand.1, hrec.2⟩
      constructor
      · refine List.chain'_append.mpr ⟨hfl.1, hconsBB, ?_⟩
        intro x _ y hy
        simp at hy
        subst hy
        exact RelBB_right (by simpa using hws)
      · refine List.chain'_append.mpr ⟨hfl.2, hconsNL, ?_⟩
        intro x _ y hy
        simp at hy
        subst hy
        exact RelNL_right (by simpa using hws)

theorem normalize_establishes (s : Str) : NormalizedP (normalize_text s) := by
  have h1 := sub1_good (replaceDashNbsp s)
  have h2 := sub2aux_good (sub1 (replaceDashNbsp s)) [] (by simpa using h1.2)
  have hbad2 : ∀ c ∈ sub2 (sub1 (replaceDashNbsp s)),
      c ≠ ' ' ∧ c ≠ '–' ∧ c ≠ '—' ∧ c ≠ '‒' := by
    intro c hc
    rcases sub2aux_chars _ [] hc with hh | hh | hh
    · simp at hh
    · rcases sub1_chars hh with hh2 | hh2
      · exact replace_chars c hh2
      · rw [hh2]; decide
    · rw [hh]; decide
  have htab2 : '\t' ∉ sub2 (sub1 (replaceDashNbsp s)) := by
    intro hc
    rcases sub2aux_chars _ [] hc with hh | hh | hh
    · simp at hh
    · exact h1.1 hh
    · exact absurd hh (by decide)
  refine ⟨?_, ?_, ?_, ?_, ?_, ?_⟩
  · intro c hc
    exact hbad2 c (mem_dropWhile_sub (rstrip_chars hc))
  · intro hc
    exact htab2 (mem_dropWhile_sub (rstrip_chars hc))
  · exact rstrip_chain (chain'_dropWhile h2.1)
  · exact rstrip_chain (chain'_dropWhile h2.2)
  · intro c hc
    exact dropWhile_head_not (rstrip_head hc)
  · intro c hc
    exact rstrip_last_not hc

theorem normalize_fixes {s : Str} (h : NormalizedP s) : normalize_text s = s := by
  obtain ⟨hbad, htab, hbb, hnl, hh, hl⟩ := h
  unfold normalize_text
  rw [replace_fix hbad, sub1_fix htab hbb, sub2_fix hnl]
  exact pstrip_eq_self hh hl

/-- C7: text normalization is idempotent — `_normalize_text` applied to its
own output returns it unchanged — and every output satisfies the normal-form
invariant: no non-breaking space, no en/em/figure dash, no tab and no run of
spaces or tabs longer than one space, no whitespace adjacent to a line
break, and no leading or trailing whitespace. -/
theorem C7_normalize_idempotent (t : Str) :
    normalize_text (normalize_text t) = normalize_text t ∧
      NormalizedP (normalize_text t) :=
  ⟨normalize_fixes (normalize_establishes t), normalize_establishes t⟩

/-! ## C2 and C3: the timeline against the date classification -/

theorem unique_dates_normalize (text : Str) :
    unique_dates (normalize_text text) = unique_dates text := by
  unfold unique_dates
  rw [normalize_fixes (normalize_establishes text)]

theorem extract_normalize (text : Str) (R : CalDate) :
    extract_and_classify_dates (normalize_text text) R
      = extract_and_classify_dates text R := by
  unfold extract_and_classify_dates
  rw [unique_dates_normalize]

theorem timeline_def (text : Str) (n1 n2 : CalDate) :
    generate_case_timeline text n1 n2
      = pySort (fun a b => dateGeB (toDateKey b.date) (toDateKey a.date))
          ((extract_and_classify_dates text n1).all_unique_sorted.map
            (mkEvent (normalize_text text) n2)) := by
  simp only [generate_case_timeline]
  rw [extract_normalize]

theorem mkEvent_date (clean : Str) (now2 : CalDate) (dstr : Str) :
    (mkEvent clean now2 dstr).date = dstr := rfl

theorem mkEvent_status_of_parse {dstr : Str} {d : CalDate} (clean : Str)
    (now2 : CalDate) (h : parse_one_date dstr = some d) :
    (mkEvent clean now2 dstr).status
      = if dateGeB d now2 = true then "⏳ Upcoming".toList
        else "✅ Completed".toList := by
  unfold mkEvent
  simp only [h]

theorem evLe_total (a b : TimelineEvent) :
    dateGeB (toDateKey b.date) (toDateKey a.date) = true ∨
      dateGeB (toDateKey a.date) (toDateKey b.date) = true :=
  dateGeB_total _ _

theorem evLe_trans (a b c : TimelineEvent)
    (h1 : dateGeB (toDateKey b.date) (toDateKey a.date) = true)
    (h2 : dateGeB (toDateKey c.date) (toDateKey b.date) = true) :
    dateGeB (toDateKey c.date) (toDateKey a.date) = true :=
  dateGeB_trans h2 h1

/-- C2 counterexample: a document containing `0999-03-01` and `1500-04-02`.
Both dates are extracted (in ascending order in `all_unique_sorted`), but the
year 999 prints without four digits, its display string fails to re-parse and
sorts under the 1970-01-01 fallback key, so the timeline lists 1500 before
999 — the events are not sorted ascending by date. -/
theorem C2_counterexample_timeline_not_sorted :
    (generate_case_timeline "0999-03-01 and 1500-04-02".toList
        ⟨2025, 1, 1⟩ ⟨2025, 1, 1⟩).map (fun e => e.date)
      = [fmtDate ⟨1500, 4, 2⟩, fmtDate ⟨999, 3, 1⟩] ∧
    (extract_and_classify_dates "0999-03-01 and 1500-04-02".toList
        ⟨2025, 1, 1⟩).all_unique_sorted
      = [fmtDate ⟨999, 3, 1⟩, fmtDate ⟨1500, 4, 2⟩] ∧
    dateLtB ⟨999, 3, 1⟩ ⟨1500, 4, 2⟩ = true := by
  refine ⟨by decide, by decide, by decide⟩

/-- C2 (amended): with the wall-clock sampled once (both samples equal `R`),
the timeline has exactly one event per unique date (count parity with
`total_unique` holds unconditionally), the events are exactly the rendered
unique dates up to ordering, the list is sorted ascending by the re-parsed
sort key (display strings that fail to re-parse fall back to 1970-01-01),
and for every unique date whose year is at least 1000 the event status
agrees with the past/upcoming classification (`⏳ Upcoming` iff the date is
on or after the reference). -/
theorem C2_amended_timeline_agreement (text : Str) (R : CalDate) :
    (generate_case_timeline text R R).length
        = (extract_and_classify_dates text R).total_unique ∧
    (generate_case_timeline text R R).Perm
        ((extract_and_classify_dates text R).all_unique_sorted.map
          (mkEvent (normalize_text text) R)) ∧
    (generate_case_timeline text R R).Pairwise
        (fun a b => dateGeB (toDateKey b.date) (toDateKey a.date) = true) ∧
    ∀ d ∈ unique_dates text, 1000 ≤ d.year →
      ∀ e ∈ generate_case_timeline text R R, e.date = fmtDate d →
        (e.status = "⏳ Upcoming".toList ↔ dateGeB d R = true) := by
  have htl := timeline_def text R R
  have hperm : (generate_case_timeline text R R).Perm
      ((extract_and_classify_dates text R).all_unique_sorted.map
        (mkEvent (normalize_text text) R)) := by
    rw [htl]
    exact pySort_perm _ _
  refine ⟨?_, hperm, ?_, ?_⟩
  · rw [hperm.length_eq, List.length_map, extract_all_list_eq, extract_total_eq,
      List.length_map]
  · rw [htl]
    exact pySort_sorted evLe_total evLe_trans _
  · intro d hd hy e he hedate
    have hmem : e ∈ (extract_and_classify_dates text R).all_unique_sorted.map
        (mkEvent (normalize_text text) R) := hperm.mem_iff.mp he
    rcases List.mem_map.mp hmem with ⟨s, _, rfl⟩
    rw [mkEvent_date] at hedate
    subst hedate
    have hround : parse_one_date (fmtDate d) = some d :=
      parse_one_date_fmt (unique_dates_valid hd) hy
    rw [mkEvent_status_of_parse _ _ hround]
    by_cases hge : dateGeB d R = true
    · simp [hge]
    · simp [hge]

/-- C2 amended witness: the agreement theorem applied at a concrete document
with one upcoming date. -/
theorem C2_amended_timeline_agreement_witness :
    (generate_case_timeline "15 November 2025".toList ⟨2025, 1, 1⟩ ⟨2025, 1, 1⟩).length
      = (extract_and_classify_dates "15 November 2025".toList ⟨2025, 1, 1⟩).total_unique ∧
    (mkEvent (normalize_text "15 November 2025".toList) ⟨2025, 1, 1⟩
        (fmtDate ⟨2025, 11, 15⟩)).status = "⏳ Upcoming".toList := by
  refine ⟨(C2_amended_timeline_agreement _ ⟨2025, 1, 1⟩).1, ?_⟩
  refine ((C2_amended_timeline_agreement "15 November 2025".toList ⟨2025, 1, 1⟩).2.2.2
    ⟨2025, 11, 15⟩ ?_ ?_ _ ?_ ?_).mpr ?_
  · decide
  · decide
  · decide
  · decide
  · decide

/-- C3 counterexample: `generate_case_timeline` samples the wall clock a
second time for event statuses.  With the first sample on 2025-11-15 and the
second a day later, `extract_and_classify_dates` classifies the hearing date
as upcoming while the very timeline built from that result marks the same
date `✅ Completed` — the date-list and timeline outputs of one invocation
disagree. -/
theorem C3_counterexample_resampled_clock :
    (extract_and_classify_dates "15 November 2025".toList ⟨2025, 11, 15⟩).upcoming_list
      = ["15 November 2025".toList] ∧
    (generate_case_timeline "15 November 2025".toList
        ⟨2025, 11, 15⟩ ⟨2025, 11, 16⟩).map (fun e => (e.date, e.status))
      = [("15 November 2025".toList, "✅ Completed".toList)] := by
  refine ⟨by decide, by decide⟩

/-- C3 (amended): the reference date is not injectable — each function reads
the wall clock itself — and `generate_case_timeline` samples it twice.  When
the two samples coincide (value `R` for both), classification is internally
consistent: a unique date with a four-digit year is on or after `R` exactly
when the timeline carries an `⏳ Upcoming` event displaying it. -/
theorem C3_amended_single_sample_consistency (text : Str) (R : CalDate) :
    ∀ d ∈ unique_dates text, 1000 ≤ d.year →
      (dateGeB d R = true ↔ ∃ e, e ∈ generate_case_timeline text R R ∧
        e.date = fmtDate d ∧ e.status = "⏳ Upcoming".toList) := by
  intro d hd hy
  have htl := timeline_def text R R
  have hround : parse_one_date (fmtDate d) = some d :=
    parse_one_date_fmt (unique_dates_valid hd) hy
  have hperm : (generate_case_timeline text R R).Perm
      ((extract_and_classify_dates text R).all_unique_sorted.map
        (mkEvent (normalize_text text) R)) := by
    rw [htl]
    exact pySort_perm _ _
  constructor
  · intro hge
    refine ⟨mkEvent (normalize_text text) R (fmtDate d), ?_, rfl, ?_⟩
    · apply hperm.mem_iff.mpr
      apply List.mem_map.mpr
      refine ⟨fmtDate d, ?_, rfl⟩
      rw [extract_all_list_eq]
      exact List.mem_map.mpr ⟨d, hd, rfl⟩
    · rw [mkEvent_status_of_parse _ _ hround, if_pos hge]
  · rintro ⟨e, he, hedate, hestat⟩
    rcases List.mem_map.mp (hperm.mem_iff.mp he) with ⟨s, _, rfl⟩
    rw [mkEvent_date] at hedate
    subst hedate
    rw [mkEvent_status_of_parse _ _ hround] at hestat
    by_cases hge : dateGeB d R = true
    · exact hge
    · rw [if_neg hge] at hestat
      exact absurd hestat (by decide)

/-- C3 amended witness. -/
theorem C3_amended_single_sample_consistency_witness :
    ∃ e, e ∈ generate_case_timeline "15 November 2025".toList
        ⟨2025, 11, 15⟩ ⟨2025, 11, 15⟩ ∧
      e.date = fmtDate ⟨2025, 11, 15⟩ ∧ e.status = "⏳ Upcoming".toList := by
  refine (C3_amended_single_sample_consistency "15 November 2025".toList
    ⟨2025, 11, 15⟩ ⟨2025, 11, 15⟩ ?_ ?_).mp ?_
  · decide
  · decide
  · decide

/-! ## C4: precedence of the case-status rules -/

/-- C4: `detect_case_status` applies its rules with first match winning:
judgment/order language forces Closed regardless of the upcoming count; else
a positive upcoming count forces Ongoing; else an outcome keyword forces
Closed; else the default is Ongoing. -/
theorem C4_detect_case_status_precedence (t : Str) (n : Nat) :
    (((strContains (lowerS t) "judgment".toList
          && strContains (lowerS t) "delivered".toList)
        || (strContains (lowerS t) "final order".toList
          && strContains (lowerS t) "issued".toList)) = true →
      detect_case_status t n = "Closed".toList) ∧
    (((strContains (lowerS t) "judgment".toList
          && strContains (lowerS t) "delivered".toList)
        || (strContains (lowerS t) "final order".toList
          && strContains (lowerS t) "issued".toList)) = false → 0 < n →
      detect_case_status t n = "Ongoing".toList) ∧
    (((strContains (lowerS t) "judgment".toList
          && strContains (lowerS t) "delivered".toList)
        || (strContains (lowerS t) "final order".toList
          && strContains (lowerS t) "issued".toList)) = false → n = 0 →
      (["dismissed".toList, "acquitted".toList, "convicted".toList,
        "sentenced".toList].any (fun k => strContains (lowerS t) k)) = true →
      detect_case_status t n = "Closed".toList) ∧
    (((strContains (lowerS t) "judgment".toList
          && strContains (lowerS t) "delivered".toList)
        || (strContains (lowerS t) "final order".toList
          && strContains (lowerS t) "issued".toList)) = false → n = 0 →
      (["dismissed".toList, "acquitted".toList, "convicted".toList,
        "sentenced".toList].any (fun k => strContains (lowerS t) k)) = false →
      detect_case_status t n = "Ongoing".toList) := by
  refine ⟨?_, ?_, ?_, ?_⟩
  · intro h1
    simp only [detect_case_status]
    rw [if_pos h1]
  · intro h1 h2
    simp only [detect_case_status]
    rw [if_neg (fun hc => Bool.false_ne_true (h1 ▸ hc)), if_pos h2]
  · intro h1 h2 h3
    simp only [detect_case_status]
    rw [if_neg (fun hc => Bool.false_ne_true (h1 ▸ hc)), if_neg (by omega), if_pos h3]
  · intro h1 h2 h3
    simp only [detect_case_status]
    rw [if_neg (fun hc => Bool.false_ne_true (h1 ▸ hc)), if_neg (by omega),
      if_neg (fun hc => Bool.false_ne_true (h3 ▸ hc))]

/-- C4 witness: the spec's own example — judgment language plus two upcoming
dates classifies Closed (rule 1 outranks rule 2), and the other three rules
at concrete inputs. -/
theorem C4_detect_case_status_precedence_witness :
    detect_case_status "The judgment was delivered on 2024-01-05.".toList 2
      = "Closed".toList ∧
    detect_case_status "Next hearing scheduled.".toList 3 = "Ongoing".toList ∧
    detect_case_status "The accused was acquitted.".toList 0 = "Closed".toList ∧
    detect_case_status "Arguments continue.".toList 0 = "Ongoing".toList := by
  refine ⟨(C4_detect_case_status_precedence _ 2).1 (by decide),
    (C4_detect_case_status_precedence _ 3).2.1 (by decide) (by omega),
    (C4_detect_case_status_precedence _ 0).2.2.1 (by decide) rfl (by decide),
    (C4_detect_case_status_precedence _ 0).2.2.2 (by decide) rfl (by decide)⟩

/-! ## C5: range expansion -/

/-- C5: a month-day-range-year match expands to exactly the two boundary
dates, each resolved through `_parse_one_date` on `"month day year"`, a
boundary that fails to parse being silently dropped while the other is kept;
and the spec scenario — `February 5-12, 2026` before 2026-02-05 yields
exactly the two upcoming dates `05 February 2026` and `12 February 2026`. -/
theorem C5_range_expansion :
    (∀ (mo d1 d2 yr : Str) (dl dr : CalDate),
      parse_one_date (mo ++ ' ' :: d1 ++ ' ' :: yr) = some dl →
      parse_one_date (mo ++ ' ' :: d2 ++ ' ' :: yr) = some dr →
      expand_range mo d1 d2 yr = [dl, dr]) ∧
    (∀ (mo d1 d2 yr : Str) (dr : CalDate),
      parse_one_date (mo ++ ' ' :: d1 ++ ' ' :: yr) = none →
      parse_one_date (mo ++ ' ' :: d2 ++ ' ' :: yr) = some dr →
      expand_range mo d1 d2 yr = [dr]) ∧
    (∀ (mo d1 d2 yr : Str) (dl : CalDate),
      parse_one_date (mo ++ ' ' :: d1 ++ ' ' :: yr) = some dl →
      parse_one_date (mo ++ ' ' :: d2 ++ ' ' :: yr) = none →
      expand_range mo d1 d2 yr = [dl]) ∧
    (extract_and_classify_dates "February 5-12, 2026".toList ⟨2026, 1, 1⟩).upcoming_list
      = ["05 February 2026".toList, "12 February 2026".toList] ∧
    (extract_and_classify_dates "February 5-12, 2026".toList ⟨2026, 1, 1⟩).past_count
      = 0 := by
  refine ⟨?_, ?_, ?_, by decide, by decide⟩
  · intro mo d1 d2 yr dl dr h1 h2
    simp only [expand_range]
    rw [h1, h2]
    rfl
  · intro mo d1 d2 yr dr h1 h2
    simp only [expand_range]
    rw [h1, h2]
    rfl
  · intro mo d1 d2 yr dl h1 h2
    simp only [expand_range]
    rw [h1, h2]
    rfl

/-- C5 witness: both boundaries of `February 5-12, 2026` parse, so the range
expands to exactly the two boundary dates. -/
theorem C5_range_expansion_witness :
    expand_range "February".toList "5".toList "12".toList "2026".toList
      = [⟨2026, 2, 5⟩, ⟨2026, 2, 12⟩] :=
  C5_range_expansion.1 _ _ _ _ _ _ (by decide) (by decide)

/-! ## C8: totality on empty input -/

/-- C8: on the empty document every extractor returns its empty result and
never fails: zero dates with all lists empty, zero citations, an empty
timeline, and — there being no closing keywords and no upcoming dates — the
default Ongoing case status. -/
theorem C8_empty_input_total (R : CalDate) :
    extract_and_classify_dates [] R
      = { all_unique_sorted := [], past_count := 0, past_list := [],
          upcoming_count := 0, upcoming_list := [], total_unique := 0 } ∧
    extract_sections_invoked [] = ([], 0) ∧
    generate_case_timeline [] R R = [] ∧
    detect_case_status [] (extract_and_classify_dates [] R).upcoming_count
      = "Ongoing".toList := by
  have hu : unique_dates [] = [] := by decide
  refine ⟨?_, by decide, ?_, ?_⟩
  · unfold extract_and_classify_dates
    rw [hu]
    rfl
  · rw [timeline_def]
    rw [extract_all_list_eq, hu]
    rfl
  · rw [extract_upcoming_count_eq, hu, List.filter_nil]
    decide

/-! ## C9: month-year mentions resolve to the first of the month -/

theorem splitWs_two {t1 t2 : Str} (h1 : t1 ≠ []) (h2 : t2 ≠ [])
    (n1 : ∀ c ∈ t1, pySpace c = false) (n2 : ∀ c ∈ t2, pySpace c = false) :
    splitWsAux [] (t1 ++ ' ' :: t2) = [t1, t2] := by
  rw [splitWsAux_append_nows n1 [] _]
  rw [List.nil_append, splitWsAux_space, if_neg (by simp [isEmpty_false_of_ne_nil h1])]
  have e2 : splitWsAux [] t2 = [t2] := by
    have h0 := splitWsAux_append_nows n2 [] []
    rw [List.append_nil, List.nil_append] at h0
    rw [h0, show splitWsAux t2 [] = if t2.isEmpty then [] else [t2] from rfl,
      if_neg (by simp [isEmpty_false_of_ne_nil h2])]
  rw [e2]

theorem daysInMonth_pos {y m : Nat} (h1 : 1 ≤ m) (h2 : m ≤ 12) :
    1 ≤ daysInMonth y m := by
  interval_cases m <;> simp [daysInMonth] <;> split <;> omega

/-- A bare `Month YYYY` fragment parses through the `%B %Y` template to the
first day of that month (the three-token templates all fail on two tokens). -/
theorem parse_month_year {m y : Nat} (hm1 : 1 ≤ m) (hm2 : m ≤ 12)
    (hy1 : 1000 ≤ y) (hy2 : y ≤ 9999) :
    parse_one_date (monthName m ++ ' ' :: natChars y) = some ⟨y, m, 1⟩ := by
  have hmon := monthName_chars hm1 hm2
  have hnat := natChars_digits y
  have hnatall : ∀ c ∈ natChars y, isDigitC c = true :=
    fun c hc => (List.all_eq_true.mp hnat.1) c hc
  have hnc : ∀ c ∈ monthName m ++ ' ' :: natChars y, c ≠ ',' := by
    intro c hc
    rcases List.mem_append.mp hc with hh | hh
    · exact (hmon.2 c hh).2
    · rcases List.mem_cons.mp hh with rfl | hh
      · decide
      · exact digit_ne_comma (hnatall c hh)
  have hmap := map_comma_id hnc
  have hhead : ∀ c, (monthName m ++ ' ' :: natChars y).head? = some c →
      pySpace c = false := by
    intro c hc
    obtain ⟨p0, ps, hp⟩ := List.exists_cons_of_ne_nil hmon.1
    rw [hp, List.cons_append, List.head?_cons, Option.some.injEq] at hc
    exact hc ▸ (hmon.2 p0 (by simp [hp])).1
  have hlast : ∀ c, (monthName m ++ ' ' :: natChars y).getLast? = some c →
      pySpace c = false := by
    intro c hc
    rw [show monthName m ++ ' ' :: natChars y
      = (monthName m ++ [' ']) ++ natChars y by simp] at hc
    rw [List.getLast?_append_of_ne_nil _ hnat.2] at hc
    exact digit_not_pySpace (hnatall c (List.mem_of_getLast?_eq_some hc))
  have hstrip := pstrip_eq_self hhead hlast
  have hsplit : splitWsAux [] (monthName m ++ ' ' :: natChars y)
      = [monthName m, natChars y] :=
    splitWs_two hmon.1 hnat.2 (fun c hc => (hmon.2 c hc).1)
      (fun c hc => digit_not_pySpace (hnatall c hc))
  have f1 : tmpl_dBY (monthName m ++ ' ' :: natChars y) = none := by
    unfold tmpl_dBY
    rw [hsplit]
  have f2 : tmpl_BdY (monthName m ++ ' ' :: natChars y) = none := by
    unfold tmpl_BdY
    rw [hsplit]
  have f3 : tmpl_dbY (monthName m ++ ' ' :: natChars y) = none := by
    unfold tmpl_dbY
    rw [hsplit]
  have f4 : tmpl_bdY (monthName m ++ ' ' :: natChars y) = none := by
    unfold tmpl_bdY
    rw [hsplit]
  have h1y : 1 ≤ y := by omega
  have fBY : tmpl_BY (monthName m ++ ' ' :: natChars y) = some ⟨y, m, 1⟩ := by
    unfold tmpl_BY
    rw [hsplit]
    show (do
      let mo ← monthFull? (monthName m)
      let yy ← yearTok? (natChars y)
      mkDate? yy mo 1) = some ⟨y, m, 1⟩
    rw [monthFull?_monthName hm1 hm2, yearTok?_natChars hy1 hy2]
    show mkDate? y m 1 = some ⟨y, m, 1⟩
    simp [mkDate?, h1y, hy2, hm1, hm2, daysInMonth_pos hm1 hm2]
  unfold parse_one_date parse_templates
  rw [hmap, hstrip, f1, f2, f3, f4, fBY]
  rfl

/-- C9: a month-year-only mention resolves to the first day of that month:
`_parse_one_date` maps a `Month YYYY` fragment to `(YYYY, month, 1)`
(e.g. `March 2026` to 2026-03-01), and such a mention surfaces in every
output list and timeline entry as `01 Month YYYY`. -/
theorem C9_month_year_first_day :
    (∀ (m y : Nat), 1 ≤ m → m ≤ 12 → 1000 ≤ y → y ≤ 9999 →
      parse_one_date (monthName m ++ ' ' :: natChars y) = some ⟨y, m, 1⟩) ∧
    parse_one_date "March 2026".toList = some ⟨2026, 3, 1⟩ ∧
    (extract_and_classify_dates "March 2026".toList ⟨2025, 6, 1⟩).all_unique_sorted
      = ["01 March 2026".toList] ∧
    (extract_and_classify_dates "March 2026".toList ⟨2025, 6, 1⟩).upcoming_list
      = ["01 March 2026".toList] ∧
    (generate_case_timeline "March 2026".toList ⟨2025, 6, 1⟩ ⟨2025, 6, 1⟩).map
        (fun e => (e.date, e.status))
      = [("01 March 2026".toList, "⏳ Upcoming".toList)] := by
  refine ⟨?_, by decide, by decide, by decide, by decide⟩
  intro m y hm1 hm2 hy1 hy2
  exact parse_month_year hm1 hm2 hy1 hy2

/-- C9 witness: the general statement instantiated at March 2026. -/
theorem C9_month_year_first_day_witness :
    parse_one_date (monthName 3 ++ ' ' :: natChars 2026) = some ⟨2026, 3, 1⟩ :=
  C9_month_year_first_day.1 3 2026 (by decide) (by decide) (by decide) (by decide)

/-! ## C6: case-insensitive first-seen deduplication -/

theorem dedupCIAux_sublist : ∀ (seen l : List Str), (dedupCIAux seen l).Sublist l := by
  intro seen l
  induction l generalizing seen with
  | nil => simp [dedupCIAux]
  | cons a rest ih =>
    simp only [dedupCIAux]
    split
    · exact List.Sublist.cons _ (ih seen)
    · exact List.Sublist.cons₂ _ (ih _)

theorem dedupCIAux_not_seen : ∀ (seen l : List Str) (s : Str),
    s ∈ dedupCIAux seen l → seen.contains (lowerS s) = false := by
  intro seen l
  induction l generalizing seen with
  | nil =>
    intro s hs
    simp [dedupCIAux] at hs
  | cons a rest ih =>
    intro s hs
    simp only [dedupCIAux] at hs
    split at hs
    · exact ih seen s hs
    · next h =>
      rcases List.mem_cons.mp hs with rfl | hs2
      · simpa using h
      · have h2 := ih (lowerS a :: seen) s hs2
        simp [List.contains_cons] at h2
        simpa using h2.2

theorem dedupCIAux_pairwise : ∀ (seen l : List Str),
    (dedupCIAux seen l).Pairwise (fun a b => lowerS a ≠ lowerS b) := by
  intro seen l
  induction l generalizing seen with
  | nil => simp [dedupCIAux]
  | cons a rest ih =>
    simp only [dedupCIAux]
    split
    · exact ih seen
    · refine List.Pairwise.cons ?_ (ih _)
      intro b hb
      have h2 := dedupCIAux_not_seen _ _ b hb
      simp [List.contains_cons] at h2
      exact fun hc => h2.1 hc.symm

theorem dedupCIAux_cover : ∀ (seen l : List Str) (s : Str), s ∈ l →
    seen.contains (lowerS s) = true ∨ ∃ t ∈ dedupCIAux seen l, lowerS t = lowerS s := by
  intro seen l
  induction l generalizing seen with
  | nil =>
    intro s hs
    cases hs
  | cons a rest ih =>
    intro s hs
    simp only [dedupCIAux]
    split
    · next h =>
      rcases List.mem_cons.mp hs with rfl | hs2
      · exact Or.inl h
      · exact ih seen s hs2
    · rcases List.mem_cons.mp hs with rfl | hs2
      · exact Or.inr ⟨s, List.mem_cons_self _ _, rfl⟩
      · rcases ih (lowerS a :: seen) s hs2 with hc | ⟨t, ht, hts⟩
        · simp [List.contains_cons] at hc
          rcases hc with h1 | h1
          · exact Or.inr ⟨a, List.mem_cons_self _ _, h1.symm⟩
          · exact Or.inl (by simpa using h1)
        · exact Or.inr ⟨t, List.mem_cons_of_mem _ ht, hts⟩

theorem dedupCIAux_find : ∀ (seen l : List Str) (k : Str), seen.contains k = false →
    (dedupCIAux seen l).find? (fun u => lowerS u == k)
      = l.find? (fun u => lowerS u == k) := by
  intro seen l
  induction l generalizing seen with
  | nil =>
    intro k _
    simp [dedupCIAux]
  | cons a rest ih =>
    intro k hk
    simp only [dedupCIAux]
    split
    · next h =>
      have hne : (lowerS a == k) = false := by
        cases hb : lowerS a == k
        · rfl
        · have he : lowerS a = k := eq_of_beq hb
          rw [← he, h] at hk
          exact Bool.noConfusion hk
      rw [List.find?_cons_of_neg _ (by simp [hne])]
      exact ih seen k hk
    · by_cases hak : (lowerS a == k) = true
      · rw [List.find?_cons_of_pos _ (by simp at hak ⊢; exact hak),
          List.find?_cons_of_pos _ (by simp at hak ⊢; exact hak)]
      · have hne : (lowerS a == k) = false := by
          cases hb : lowerS a == k
          · rfl
          · exact absurd hb hak
        rw [List.find?_cons_of_neg _ (by simp [hne]),
          List.find?_cons_of_neg _ (by simp [hne])]
        apply ih
        have h1 : (k == lowerS a) = false := by
          cases hb : k == lowerS a
          · rfl
          · exact absurd (beq_iff_eq.mpr (eq_of_beq hb).symm) (by simp [hne])
        rw [List.contains_cons, h1, hk]
        rfl

/-- C6: citation deduplication is case-insensitive on the full label: the
output of `extract_sections_invoked` is an order-preserving sublist of the
raw match list, no two output labels agree up to case, every raw label has a
case-insensitive representative in the output, the representative of every
key is the first-seen raw label with that key (original casing kept), the
count equals the output length, and a text containing both
`Section 420 IPC` and `section 420 ipc` yields exactly the first one. -/
theorem C6_citation_dedup_case_insensitive :
    (∀ (text : Str),
      (extract_sections_invoked text).1.Sublist
        (sectionsA (normalize_text text) ++ sectionsB (normalize_text text)) ∧
      (extract_sections_invoked text).1.Pairwise (fun a b => lowerS a ≠ lowerS b) ∧
      (∀ s ∈ sectionsA (normalize_text text) ++ sectionsB (normalize_text text),
        ∃ t ∈ (extract_sections_invoked text).1, lowerS t = lowerS s) ∧
      (∀ k : Str, (extract_sections_invoked text).1.find? (fun u => lowerS u == k)
        = (sectionsA (normalize_text text) ++ sectionsB (normalize_text text)).find?
            (fun u => lowerS u == k)) ∧
      (extract_sections_invoked text).2 = (extract_sections_invoked text).1.length) ∧
    extract_sections_invoked "Section 420 IPC and section 420 ipc".toList
      = (["Section 420 IPC".toList], 1) := by
  constructor
  · intro text
    refine ⟨dedupCIAux_sublist _ _, dedupCIAux_pairwise _ _, ?_, ?_, rfl⟩
    · intro s hs
      rcases dedupCIAux_cover [] _ s hs with hc | hc
      · simp at hc
      · exact hc
    · intro k
      exact dedupCIAux_find [] _ k rfl
  · decide

/-- C6 witness: in the two-casing text, the lower-cased second occurrence has
a case-insensitive representative in the deduplicated output. -/
theorem C6_citation_dedup_case_insensitive_witness :
    ∃ t ∈ (extract_sections_invoked "Section 420 IPC and section 420 ipc".toList).1,
      lowerS t = lowerS "Section 420 ipc".toList :=
  (C6_citation_dedup_case_insensitive.1
      "Section 420 IPC and section 420 ipc".toList).2.2.1
    "Section 420 ipc".toList (by decide)

/-! ## C10: family-A reference tokens start with a digit -/

theorem mem_foldr_append {α β : Type} (g : α → List β) (L : List α) (x : β) :
    x ∈ L.foldr (fun pr acc => g pr ++ acc) [] ↔ ∃ pr ∈ L, x ∈ g pr := by
  induction L with
  | nil => simp
  | cons a L ih => simp [List.foldr_cons, List.mem_append, ih]

theorem pTokOK_head {p : Str} (h : pTokOK p = true) :
    ∃ c cs, p = c :: cs ∧ isDigitC c = true := by
  simp only [pTokOK, Bool.and_eq_true] at h
  have h1 := h.1
  cases p with
  | nil => simp at h1
  | cons c cs =>
    refine ⟨c, cs, rfl, ?_⟩
    cases hd : isDigitC c
    · simp [List.takeWhile_cons, hd] at h1
    · rfl

set_option maxHeartbeats 1000000 in
set_option maxHeartbeats 4000000 in
/-- C10: every family-A citation label is `Section <tok>` (optionally with an
act suffix) where `<tok>` passes the digits-then-letters token filter and in
particular begins with a digit; a purely alphabetic token yields no label. -/
theorem C10_familyA_tokens_start_with_digit :
    (∀ (clean lbl : Str), lbl ∈ sectionsA clean →
      ∃ p act, pTokOK p = true ∧ (∃ c cs, p = c :: cs ∧ isDigitC c = true) ∧
        (lbl = "Section ".toList ++ p ∨
         lbl = "Section ".toList ++ p ++ ' ' :: act)) ∧
    sectionsA (normalize_text "Section abc IPC".toList) = [] ∧
    sectionsA (normalize_text "Section 420 IPC".toList)
      = ["Section 420 IPC".toList] := by
  refine ⟨?_, ?_, ?_⟩
  case refine_2 => decide
  case refine_3 => decide
  intro clean lbl hl
  unfold sectionsA at hl
  rcases (mem_foldr_append (fun (pr : Str × Str) => partLabels pr.1 (pstrip pr.2)) (scanAF clean.length clean) lbl).mp hl
    with ⟨pr, _, hmem⟩
  unfold partLabels at hmem
  rcases List.mem_filterMap.mp hmem with ⟨q, _, hq⟩
  have hq2 : (if (pstrip q).isEmpty then (none : Option Str)
      else if pTokOK (pstrip q) then
        some ("Section ".toList ++ pstrip q ++
          (if (pstrip pr.2).isEmpty then [] else ' ' :: pstrip pr.2))
      else none) = some lbl := hq
  split at hq2
  · exact Option.noConfusion hq2
  · split at hq2
    · next hTok =>
      have hlbl := Option.some.inj hq2
      refine ⟨pstrip q, pstrip pr.2, hTok, pTokOK_head hTok, ?_⟩
      by_cases ha : (pstrip pr.2).isEmpty = true
      · left
        rw [← hlbl]
        simp [ha]
      · right
        rw [← hlbl]
        simp [ha]
    · exact Option.noConfusion hq2

/-- C10 witness: the general shape theorem applied to the concrete label
`Section 420 IPC` produced from `Section 420 IPC`. -/
theorem C10_familyA_tokens_start_with_digit_witness :
    ∃ p act, pTokOK p = true ∧ (∃ c cs, p = c :: cs ∧ isDigitC c = true) ∧
      ("Section 420 IPC".toList = "Section ".toList ++ p ∨
       "Section 420 IPC".toList = "Section ".toList ++ p ++ ' ' :: act) :=
  C10_familyA_tokens_start_with_digit.1
    (normalize_text "Section 420 IPC".toList) "Section 420 IPC".toList (by decide)

end CourtMind
